import Mathlib

/-!
# Verification of the post-quantum field-encryption layer

Shallow embedding of the crypto utility (`pqcrypto`: key generation and
persistence, Kyber/AES hybrid envelope encryption, Dilithium signatures)
and of the mongoose encryption plugin (pre-save hook, `decryptField`,
`decryptFields`, `toSafeJSON`) of the Agricultural-Supply-Chain backend.

Bytes are modelled as `List Nat` (each entry `< 256`), strings as
`List Char`.  The third-party primitives (`ml_kem768`, `ml_dsa65`,
CryptoJS AES-CBC/PKCS7) are not repository code; they are modelled as
ideal deterministic, executable functional primitives that capture the
interface contract the repository code relies on: matching keys round the
shared secret / signature trip, mismatched keys produce a different
secret / a rejected signature.  JavaScript `JSON.stringify`/`JSON.parse`
are modelled for the JSON fragment with integer numbers (IEEE-754 float
literals are outside the embedding; every claim below is settled on the
integer fragment).
-/

namespace SupplyChain

/-! ## Bytes and hex encoding (Node `Buffer` hex round trip) -/

/-- A byte sequence: every entry is `< 256`. -/
def ValidBytes (bs : List Nat) : Prop := ∀ b ∈ bs, b < 256

instance : DecidablePred ValidBytes := fun bs =>
  inferInstanceAs (Decidable (∀ b ∈ bs, b < 256))

/-- Decimal digit character, `digitToChar d = '0' + d` for `d < 10`. -/
def digitToChar (d : Nat) : Char := Char.ofNat (48 + d)

/-- Lowercase hex digit character (`0`–`9`, `a`–`f`), as Node emits. -/
def hexDigitToChar (d : Nat) : Char :=
  if d < 10 then Char.ofNat (48 + d) else Char.ofNat (87 + d)

/-- Whether a character is an ASCII hex digit (either case, as Node accepts). -/
def isHexDigitChar (c : Char) : Bool :=
  (48 ≤ c.toNat && c.toNat ≤ 57) ||
  (97 ≤ c.toNat && c.toNat ≤ 102) ||
  (65 ≤ c.toNat && c.toNat ≤ 70)

/-- Numeric value of a hex digit character. -/
def hexCharVal (c : Char) : Nat :=
  if c.toNat ≤ 57 then c.toNat - 48
  else if 97 ≤ c.toNat then c.toNat - 87
  else c.toNat - 55

/-- Node `Buffer.from(bytes).toString('hex')`: two lowercase hex chars per byte. -/
def hexEncode : List Nat → List Char
  | [] => []
  | b :: bs => hexDigitToChar (b / 16) :: hexDigitToChar (b % 16) :: hexEncode bs

/-- Node `Buffer.from(str, 'hex')`: consumes pairs of hex digits, stopping (and
truncating) at the first character pair that is not two hex digits. -/
def hexDecode : List Char → List Nat
  | c1 :: c2 :: rest =>
    if isHexDigitChar c1 && isHexDigitChar c2 then
      (hexCharVal c1 * 16 + hexCharVal c2) :: hexDecode rest
    else []
  | _ => []

theorem hexDigit_spec : ∀ d < 16,
    isHexDigitChar (hexDigitToChar d) = true ∧ hexCharVal (hexDigitToChar d) = d := by
  decide

theorem hexDecode_hexEncode (bs : List Nat) (h : ValidBytes bs) :
    hexDecode (hexEncode bs) = bs := by
  induction bs with
  | nil => rfl
  | cons b bs ih =>
    have hb : b < 256 := h b (List.mem_cons_self b bs)
    have hhi := hexDigit_spec (b / 16) (by omega)
    have hlo := hexDigit_spec (b % 16) (by omega)
    have hrest : ValidBytes bs := fun x hx => h x (List.mem_cons_of_mem b hx)
    simp [hexEncode, hexDecode, hhi.1, hhi.2, hlo.1, hlo.2, ih hrest]
    omega

/-! ## Decimal digits -/

/-- Whether a character is an ASCII decimal digit. -/
def isDigitChar (c : Char) : Bool := 48 ≤ c.toNat && c.toNat ≤ 57

/-- Decimal digits of `n`, most significant first, in front of `acc`. -/
def natCharsTo (n : Nat) (acc : List Char) : List Char :=
  if n < 10 then digitToChar n :: acc
  else natCharsTo (n / 10) (digitToChar (n % 10) :: acc)
termination_by n
decreasing_by exact Nat.div_lt_self (by omega) (by omega)

/-- Decimal digits of `n`, most significant first. -/
def natChars (n : Nat) : List Char := natCharsTo n []

/-- Decimal rendering of an integer (`String(n)` / `JSON.stringify(n)`). -/
def intChars (n : Int) : List Char :=
  if n < 0 then '-' :: natChars n.natAbs else natChars n.natAbs

/-- Greedily consume decimal digits, accumulating their value. -/
def consumeDigits (acc : Nat) : List Char → Nat × List Char
  | c :: rest =>
    if isDigitChar c then consumeDigits (acc * 10 + (c.toNat - 48)) rest
    else (acc, c :: rest)
  | [] => (acc, [])

/-- Whether the first character (if any) is a decimal digit. -/
def headIsDigit : List Char → Bool
  | c :: _ => isDigitChar c
  | [] => false

/-! ## The JSON value model

JavaScript values as they cross the `JSON.stringify`/`JSON.parse`
boundary in `encryptData`/`decryptData` and `signData`/`verifySignature`.
Numbers are restricted to integers: IEEE-754 float literals are outside
this embedding. -/

inductive Json where
  | null : Json
  | bool (b : Bool) : Json
  | num (n : Int) : Json
  | str (s : List Char) : Json
  | arr (elems : List Json) : Json
  | obj (members : List (List Char × Json)) : Json

/-- Left brace character (written via its code). -/
def lbrace : Char := Char.ofNat 123

/-- Right brace character (written via its code). -/
def rbrace : Char := Char.ofNat 125

/-- The rendering of the JSON literal `null`. -/
def nullChars : List Char := ['n', 'u', 'l', 'l']

/-- The rendering of the JSON literal `true`. -/
def trueChars : List Char := ['t', 'r', 'u', 'e']

/-- The rendering of the JSON literal `false`. -/
def falseChars : List Char := ['f', 'a', 'l', 's', 'e']

/-- How `JSON.stringify` escapes one string character. -/
def escapeChar (c : Char) : List Char :=
  if c = '"' then ['\\', '"']
  else if c = '\\' then ['\\', '\\']
  else if c = '\n' then ['\\', 'n']
  else if c = '\t' then ['\\', 't']
  else if c = '\r' then ['\\', 'r']
  else if c.toNat = 8 then ['\\', 'b']
  else if c.toNat = 12 then ['\\', 'f']
  else if c.toNat < 32 then
    ['\\', 'u', '0', '0', hexDigitToChar (c.toNat / 16), hexDigitToChar (c.toNat % 16)]
  else [c]

/-- How `JSON.stringify` escapes a whole string body. -/
def escapeString : List Char → List Char
  | [] => []
  | c :: s => escapeChar c ++ escapeString s

/-- A string rendered with surrounding quotes and escapes. -/
def quoteString (s : List Char) : List Char := '"' :: (escapeString s ++ ['"'])

mutual

/-- Model of `JSON.stringify` (compact form, as the JS builtin emits with no spacing). -/
def stringify : Json → List Char
  | .null => nullChars
  | .bool true => trueChars
  | .bool false => falseChars
  | .num n => intChars n
  | .str s => quoteString s
  | .arr es => '[' :: (stringifyElems es ++ [']'])
  | .obj ms => lbrace :: (stringifyMembers ms ++ [rbrace])

/-- Comma-separated renderings of array elements. -/
def stringifyElems : List Json → List Char
  | [] => []
  | [e] => stringify e
  | e :: es => stringify e ++ ',' :: stringifyElems es

/-- Comma-separated renderings of object members. -/
def stringifyMembers : List (List Char × Json) → List Char
  | [] => []
  | [(k, v)] => quoteString k ++ ':' :: stringify v
  | (k, v) :: ms => quoteString k ++ ':' :: stringify v ++ ',' :: stringifyMembers ms

end

/-! ## The JSON reader (`JSON.parse` model) -/

/-- JSON insignificant whitespace. -/
def isWsChar (c : Char) : Bool := c = ' ' || c = '\n' || c = '\t' || c = '\r'

/-- Drop leading JSON whitespace. -/
def skipWs (s : List Char) : List Char := s.dropWhile isWsChar

/-- Read a string body after the opening quote, undoing escapes, up to and
including the closing quote.  Unescaped control characters are rejected,
as `JSON.parse` rejects them. -/
def parseStringBody : List Char → Option (List Char × List Char)
  | [] => none
  | c :: rest =>
    if c = '"' then some ([], rest)
    else if c = '\\' then
      match rest with
      | [] => none
      | e :: r2 =>
        if e = '"' || e = '\\' || e = '/' then
          (parseStringBody r2).map (fun p => (e :: p.1, p.2))
        else if e = 'n' then (parseStringBody r2).map (fun p => ('\n' :: p.1, p.2))
        else if e = 't' then (parseStringBody r2).map (fun p => ('\t' :: p.1, p.2))
        else if e = 'r' then (parseStringBody r2).map (fun p => ('\r' :: p.1, p.2))
        else if e = 'b' then (parseStringBody r2).map (fun p => (Char.ofNat 8 :: p.1, p.2))
        else if e = 'f' then (parseStringBody r2).map (fun p => (Char.ofNat 12 :: p.1, p.2))
        else if e = 'u' then
          match r2 with
          | h1 :: h2 :: h3 :: h4 :: r3 =>
            if isHexDigitChar h1 && isHexDigitChar h2 &&
               isHexDigitChar h3 && isHexDigitChar h4 then
              (parseStringBody r3).map (fun p =>
                (Char.ofNat (((hexCharVal h1 * 16 + hexCharVal h2) * 16 +
                  hexCharVal h3) * 16 + hexCharVal h4) :: p.1, p.2))
            else none
          | _ => none
        else none
    else if c.toNat < 32 then none
    else (parseStringBody rest).map (fun p => (c :: p.1, p.2))

/-- Read the digits of a JSON integer (leading zeros rejected, as in the
JSON number grammar). -/
def parseNumBody : List Char → Option (Nat × List Char)
  | [] => none
  | c :: rest =>
    if c = '0' then
      if headIsDigit rest then none else some (0, rest)
    else if isDigitChar c then some (consumeDigits 0 (c :: rest))
    else none

/-- Read a JSON integer with optional leading minus. -/
def parseNumChars : List Char → Option (Int × List Char)
  | c :: rest =>
    if c = '-' then (parseNumBody rest).map (fun p => (-(p.1 : Int), p.2))
    else (parseNumBody (c :: rest)).map (fun p => ((p.1 : Int), p.2))
  | [] => none

/-- Strip an expected literal keyword tail, returning the remainder. -/
def stripKeyword : List Char → List Char → Option (List Char)
  | [], s => some s
  | k :: kw, c :: s => if c = k then stripKeyword kw s else none
  | _ :: _, [] => none

mutual

/-- Read one JSON value (fuel-indexed; `jsonParse` supplies ample fuel). -/
def parseVal : Nat → List Char → Option (Json × List Char)
  | 0, _ => none
  | fuel + 1, s =>
    match skipWs s with
    | [] => none
    | c :: r =>
      if c = '"' then (parseStringBody r).map (fun p => (Json.str p.1, p.2))
      else if c = '[' then
        match skipWs r with
        | [] => none
        | c2 :: r2 =>
          if c2 = ']' then some (Json.arr [], r2)
          else (parseElems fuel (c2 :: r2)).map (fun p => (Json.arr p.1, p.2))
      else if c = lbrace then
        match skipWs r with
        | [] => none
        | c2 :: r2 =>
          if c2 = rbrace then some (Json.obj [], r2)
          else (parseMembers fuel (c2 :: r2)).map (fun p => (Json.obj p.1, p.2))
      else if c = 't' then
        match stripKeyword ['r', 'u', 'e'] r with
        | some r2 => some (Json.bool true, r2)
        | none => none
      else if c = 'f' then
        match stripKeyword ['a', 'l', 's', 'e'] r with
        | some r2 => some (Json.bool false, r2)
        | none => none
      else if c = 'n' then
        match stripKeyword ['u', 'l', 'l'] r with
        | some r2 => some (Json.null, r2)
        | none => none
      else if c = '-' || isDigitChar c then
        (parseNumChars (c :: r)).map (fun p => (Json.num p.1, p.2))
      else none

/-- Read the elements of a (nonempty) array up to the closing bracket. -/
def parseElems : Nat → List Char → Option (List Json × List Char)
  | 0, _ => none
  | fuel + 1, s =>
    match parseVal fuel s with
    | none => none
    | some (j, r) =>
      match skipWs r with
      | [] => none
      | c :: r2 =>
        if c = ',' then (parseElems fuel r2).map (fun p => (j :: p.1, p.2))
        else if c = ']' then some ([j], r2)
        else none

/-- Read the members of a (nonempty) object up to the closing brace. -/
def parseMembers : Nat → List Char → Option (List (List Char × Json) × List Char)
  | 0, _ => none
  | fuel + 1, s =>
    match skipWs s with
    | [] => none
    | c :: r =>
      if c = '"' then
        match parseStringBody r with
        | none => none
        | some (k, r1) =>
          match skipWs r1 with
          | [] => none
          | c1 :: r2 =>
            if c1 = ':' then
              match parseVal fuel r2 with
              | none => none
              | some (v, r3) =>
                match skipWs r3 with
                | [] => none
                | c2 :: r4 =>
                  if c2 = ',' then
                    (parseMembers fuel r4).map (fun p => ((k, v) :: p.1, p.2))
                  else if c2 = rbrace then some ([(k, v)], r4)
                  else none
            else none
      else none

end

/-- Model of `JSON.parse`: read one value, require only whitespace to remain.
Returns `none` where `JSON.parse` throws a `SyntaxError`. -/
def jsonParse (s : List Char) : Option Json :=
  match parseVal (s.length + 1) s with
  | some (j, r) => if skipWs r = [] then some j else none
  | none => none

/-! ## Reader–printer inversion: digits and numbers -/

theorem digitToChar_isDigit : ∀ d < 10, isDigitChar (digitToChar d) = true := by decide

theorem digitToChar_val : ∀ d < 10, (digitToChar d).toNat - 48 = d := by decide

theorem digitToChar_eq_zero : ∀ d < 10, (digitToChar d = '0' ↔ d = 0) := by decide

theorem natChars_lt10 (n : Nat) (h : n < 10) : natChars n = [digitToChar n] := by
  rw [natChars, natCharsTo]
  simp [h]

theorem natCharsTo_eq (n : Nat) : ∀ acc, natCharsTo n acc = natChars n ++ acc := by
  induction n using Nat.strong_induction_on with
  | _ n ih =>
    intro acc
    by_cases h : n < 10
    · rw [natCharsTo, if_pos h, natChars_lt10 n h]
      simp
    · have hlt : n / 10 < n := Nat.div_lt_self (by omega) (by omega)
      rw [natCharsTo, if_neg h, ih (n / 10) hlt]
      conv_rhs => rw [natChars, natCharsTo, if_neg h, ih (n / 10) hlt]
      simp

theorem natChars_ge10 (n : Nat) (h : 10 ≤ n) :
    natChars n = natChars (n / 10) ++ [digitToChar (n % 10)] := by
  rw [natChars, natCharsTo]
  simp only [if_neg (by omega : ¬ n < 10)]
  exact natCharsTo_eq (n / 10) [digitToChar (n % 10)]

theorem natChars_digits (n : Nat) : ∀ c ∈ natChars n, isDigitChar c = true := by
  induction n using Nat.strong_induction_on with
  | _ n ih =>
    intro c hc
    by_cases h : n < 10
    · rw [natChars_lt10 n h] at hc
      simp at hc
      subst hc
      exact digitToChar_isDigit n h
    · rw [natChars_ge10 n (by omega)] at hc
      rcases List.mem_append.mp hc with h1 | h2
      · exact ih (n / 10) (Nat.div_lt_self (by omega) (by omega)) c h1
      · simp at h2
        subst h2
        exact digitToChar_isDigit _ (Nat.mod_lt n (by omega))

theorem natChars_head (n : Nat) :
    ∃ d t, natChars n = digitToChar d :: t ∧ d < 10 ∧ (1 ≤ n → 1 ≤ d) := by
  induction n using Nat.strong_induction_on with
  | _ n ih =>
    by_cases h : n < 10
    · exact ⟨n, [], natChars_lt10 n h, h, fun h1 => h1⟩
    · obtain ⟨d, t, ht, hd, hpos⟩ := ih (n / 10) (Nat.div_lt_self (by omega) (by omega))
      refine ⟨d, t ++ [digitToChar (n % 10)], ?_, hd, fun _ => hpos (by omega)⟩
      rw [natChars_ge10 n (by omega), ht]
      simp

/-- One step of decimal accumulation. -/
def digitStep (a : Nat) (c : Char) : Nat := a * 10 + (c.toNat - 48)

theorem consumeDigits_eq_foldl :
    ∀ ds : List Char, (∀ c ∈ ds, isDigitChar c = true) →
      ∀ acc rest, headIsDigit rest = false →
        consumeDigits acc (ds ++ rest) = (List.foldl digitStep acc ds, rest) := by
  intro ds
  induction ds with
  | nil =>
    intro _ acc rest h
    cases rest with
    | nil => simp [consumeDigits]
    | cons c r =>
      simp only [headIsDigit] at h
      simp [consumeDigits, h]
  | cons c ds ih =>
    intro hall acc rest h
    have hc := hall c (List.mem_cons_self c ds)
    simp only [List.cons_append, consumeDigits, hc, if_pos, List.append_eq]
    rw [ih (fun x hx => hall x (List.mem_cons_of_mem c hx)) _ rest h]
    rfl

theorem foldl_digitStep_natChars (n : Nat) :
    ∀ acc, List.foldl digitStep acc (natChars n) = acc * 10 ^ (natChars n).length + n := by
  induction n using Nat.strong_induction_on with
  | _ n ih =>
    intro acc
    by_cases h : n < 10
    · rw [natChars_lt10 n h]
      simp [digitStep, digitToChar_val n h]
    · rw [natChars_ge10 n (by omega), List.foldl_append]
      rw [ih (n / 10) (Nat.div_lt_self (by omega) (by omega)) acc]
      simp only [List.foldl, digitStep, List.length_append, List.length_cons,
        List.length_nil]
      rw [digitToChar_val _ (Nat.mod_lt n (by omega))]
      rw [Nat.pow_succ]
      have := Nat.div_add_mod n 10
      ring_nf
      omega

theorem consumeDigits_natChars (n acc : Nat) (rest : List Char)
    (h : headIsDigit rest = false) :
    consumeDigits acc (natChars n ++ rest) =
      (acc * 10 ^ (natChars n).length + n, rest) := by
  rw [consumeDigits_eq_foldl (natChars n) (natChars_digits n) acc rest h,
    foldl_digitStep_natChars n acc]

theorem parseNumBody_natChars (n : Nat) (rest : List Char)
    (h : headIsDigit rest = false) :
    parseNumBody (natChars n ++ rest) = some (n, rest) := by
  obtain ⟨d, t, ht, hd, hpos⟩ := natChars_head n
  by_cases hn : n = 0
  · subst hn
    rw [natChars_lt10 0 (by omega)]
    simp only [List.cons_append, List.nil_append, parseNumBody]
    rw [if_pos (by decide : digitToChar 0 = '0')]
    simp [h]
  · have hd1 : 1 ≤ d := hpos (by omega)
    have hne : digitToChar d ≠ '0' := by
      intro hEq
      exact hn ((by omega : d ≠ 0) ((digitToChar_eq_zero d hd).mp hEq)).elim
    rw [ht, List.cons_append, parseNumBody]
    rw [if_neg hne, if_pos (digitToChar_isDigit d hd)]
    have : digitToChar d :: (t ++ rest) = natChars n ++ rest := by rw [ht]; simp
    rw [this, consumeDigits_natChars n 0 rest h]
    simp

theorem parseNumChars_intChars (n : Int) (rest : List Char)
    (h : headIsDigit rest = false) :
    parseNumChars (intChars n ++ rest) = some (n, rest) := by
  by_cases hn : n < 0
  · rw [intChars, if_pos hn, List.cons_append, parseNumChars]
    rw [if_pos rfl, parseNumBody_natChars n.natAbs rest h]
    simp [abs_of_neg hn]
  · rw [intChars, if_neg hn]
    obtain ⟨d, t, ht, hd, _⟩ := natChars_head n.natAbs
    rw [ht, List.cons_append, parseNumChars]
    have hneg : digitToChar d ≠ '-' := by
      intro hEq
      have := digitToChar_isDigit d hd
      rw [hEq] at this
      exact absurd this (by decide)
    rw [if_neg hneg]
    have : digitToChar d :: (t ++ rest) = natChars n.natAbs ++ rest := by rw [ht]; simp
    rw [this, parseNumBody_natChars n.natAbs rest h]
    have habs : (n.natAbs : Int) = n := by omega
    simp [habs]

/-! ## Reader–printer inversion: strings -/

theorem parseStringBody_escape (s : List Char) :
    ∀ rest, parseStringBody (escapeString s ++ ('"' :: rest)) = some (s, rest) := by
  induction s with
  | nil =>
    intro rest
    rw [escapeString, List.nil_append, parseStringBody.eq_def]
    simp
  | cons c s ih =>
    intro rest
    rw [escapeString, List.append_assoc]
    by_cases h1 : c = '"'
    · subst h1
      rw [show escapeChar '"' = ['\\', '"'] from rfl]
      simp only [List.cons_append, List.nil_append]
      rw [parseStringBody.eq_def]
      simp [ih rest]
    by_cases h2 : c = '\\'
    · subst h2
      rw [show escapeChar '\\' = ['\\', '\\'] from rfl]
      simp only [List.cons_append, List.nil_append]
      rw [parseStringBody.eq_def]
      simp [ih rest]
    by_cases h3 : c = '\n'
    · subst h3
      rw [show escapeChar '\n' = ['\\', 'n'] from rfl]
      simp only [List.cons_append, List.nil_append]
      rw [parseStringBody.eq_def]
      simp [ih rest]
    by_cases h4 : c = '\t'
    · subst h4
      rw [show escapeChar '\t' = ['\\', 't'] from rfl]
      simp only [List.cons_append, List.nil_append]
      rw [parseStringBody.eq_def]
      simp [ih rest]
    by_cases h5 : c = '\r'
    · subst h5
      rw [show escapeChar '\r' = ['\\', 'r'] from rfl]
      simp only [List.cons_append, List.nil_append]
      rw [parseStringBody.eq_def]
      simp [ih rest]
    by_cases h6 : c.toNat = 8
    · have hc : c = Char.ofNat 8 := by rw [← h6, Char.ofNat_toNat]
      subst hc
      rw [show escapeChar (Char.ofNat 8) = ['\\', 'b'] from rfl]
      simp only [List.cons_append, List.nil_append]
      rw [parseStringBody.eq_def]
      simp [ih rest]
    by_cases h7 : c.toNat = 12
    · have hc : c = Char.ofNat 12 := by rw [← h7, Char.ofNat_toNat]
      subst hc
      rw [show escapeChar (Char.ofNat 12) = ['\\', 'f'] from rfl]
      simp only [List.cons_append, List.nil_append]
      rw [parseStringBody.eq_def]
      simp [ih rest]
    by_cases h8 : c.toNat < 32
    · rw [show escapeChar c =
          ['\\', 'u', '0', '0', hexDigitToChar (c.toNat / 16), hexDigitToChar (c.toNat % 16)] by
        rw [escapeChar]
        simp [h1, h2, h3, h4, h5, h6, h7, h8]]
      simp only [List.cons_append, List.nil_append]
      rw [parseStringBody.eq_def]
      have hhi := hexDigit_spec (c.toNat / 16) (by omega)
      have hlo := hexDigit_spec (c.toNat % 16) (by omega)
      have h0 : hexCharVal '0' = 0 := rfl
      have hx0 : isHexDigitChar '0' = true := rfl
      simp only [hhi.1, hhi.2, hlo.1, hlo.2, h0, hx0, ih rest]
      have hval : c.toNat / 16 * 16 + c.toNat % 16 = c.toNat := by omega
      simp [hval, Char.ofNat_toNat, ih rest]
    · rw [show escapeChar c = [c] by
        rw [escapeChar]
        simp [h1, h2, h3, h4, h5, h6, h7, h8]]
      simp only [List.cons_append, List.nil_append]
      rw [parseStringBody.eq_def]
      simp [h1, h2, h8, ih rest]

/-- Reading a quoted, escaped string: strip the opening quote first. -/
theorem parseStringBody_quote (s : List Char) (rest : List Char) :
    quoteString s ++ rest = '"' :: (escapeString s ++ ('"' :: rest)) := by
  rw [quoteString]
  simp

/-! ## Reader–printer inversion: values -/

theorem skipWs_cons (c : Char) (t : List Char) (h : isWsChar c = false) :
    skipWs (c :: t) = c :: t := by
  simp [skipWs, List.dropWhile_cons, h]

theorem digitToChar_dispatch : ∀ d < 10,
    isWsChar (digitToChar d) = false ∧ isDigitChar (digitToChar d) = true ∧
    ¬ digitToChar d = '"' ∧ ¬ digitToChar d = '[' ∧ ¬ digitToChar d = lbrace ∧
    ¬ digitToChar d = 't' ∧ ¬ digitToChar d = 'f' ∧ ¬ digitToChar d = 'n' ∧
    ¬ digitToChar d = ']' := by
  decide

theorem parseVal_null (fuel : Nat) (rest : List Char) :
    parseVal (fuel + 1) (stringify Json.null ++ rest) = some (Json.null, rest) := by
  rw [parseVal.eq_def]
  simp only [stringify, nullChars, List.cons_append, List.nil_append]
  rw [skipWs_cons _ _ (by decide)]
  simp [stripKeyword, lbrace]

theorem parseVal_bool (fuel : Nat) (b : Bool) (rest : List Char) :
    parseVal (fuel + 1) (stringify (Json.bool b) ++ rest) = some (Json.bool b, rest) := by
  cases b <;>
    (rw [parseVal.eq_def]
     simp only [stringify, trueChars, falseChars, List.cons_append, List.nil_append]
     rw [skipWs_cons _ _ (by decide)]
     simp [stripKeyword, lbrace])

theorem parseVal_str (fuel : Nat) (s rest : List Char) :
    parseVal (fuel + 1) (stringify (Json.str s) ++ rest) = some (Json.str s, rest) := by
  rw [show stringify (Json.str s) = quoteString s from rfl]
  rw [parseStringBody_quote, parseVal.eq_def]
  simp only []
  rw [skipWs_cons _ _ (by decide)]
  simp [parseStringBody_escape]

theorem parseVal_num (fuel : Nat) (n : Int) (rest : List Char)
    (h : headIsDigit rest = false) :
    parseVal (fuel + 1) (stringify (Json.num n) ++ rest) = some (Json.num n, rest) := by
  rw [show stringify (Json.num n) = intChars n from rfl]
  rw [parseVal.eq_def]
  simp only []
  have hlb : ¬ ('-' : Char) = lbrace := by decide
  by_cases hn : n < 0
  · rw [intChars, if_pos hn, List.cons_append]
    rw [skipWs_cons _ _ (by decide)]
    have hpc := parseNumChars_intChars n rest h
    rw [intChars, if_pos hn] at hpc
    simp only [List.cons_append] at hpc
    simp [hpc, hlb]
  · obtain ⟨d, t, ht, hd, _⟩ := natChars_head n.natAbs
    have hdf := digitToChar_dispatch d hd
    have hrw : intChars n ++ rest = digitToChar d :: (t ++ rest) := by
      rw [intChars, if_neg hn, ht]
      simp
    rw [hrw, skipWs_cons _ _ hdf.1]
    have hpc := parseNumChars_intChars n rest h
    rw [intChars, if_neg hn, ht] at hpc
    simp only [List.cons_append] at hpc
    simp [hdf.2.1, hdf.2.2.1, hdf.2.2.2.1, hdf.2.2.2.2.1, hdf.2.2.2.2.2.1,
      hdf.2.2.2.2.2.2.1, hdf.2.2.2.2.2.2.2.1, hpc]

theorem stringify_head (j : Json) :
    ∃ c t, stringify j = c :: t ∧ isWsChar c = false ∧ ¬ c = ']' := by
  cases j with
  | null => exact ⟨'n', _, rfl, by decide, by decide⟩
  | bool b =>
    cases b
    · exact ⟨'f', _, rfl, by decide, by decide⟩
    · exact ⟨'t', _, rfl, by decide, by decide⟩
  | num n =>
    by_cases hn : n < 0
    · refine ⟨'-', natChars n.natAbs, ?_, by decide, by decide⟩
      rw [show stringify (Json.num n) = intChars n from rfl, intChars, if_pos hn]
    · obtain ⟨d, t, ht, hd, _⟩ := natChars_head n.natAbs
      have hdf := digitToChar_dispatch d hd
      refine ⟨digitToChar d, t, ?_, hdf.1, hdf.2.2.2.2.2.2.2.2⟩
      rw [show stringify (Json.num n) = intChars n from rfl, intChars, if_neg hn, ht]
  | str s => exact ⟨'"', _, rfl, by decide, by decide⟩
  | arr es => exact ⟨'[', _, rfl, by decide, by decide⟩
  | obj ms => exact ⟨lbrace, _, rfl, by decide, by decide⟩

theorem quoteString_cons (s : List Char) :
    quoteString s = '"' :: (escapeString s ++ ['"']) := rfl

theorem headIsDigit_cons (c : Char) (t : List Char) :
    headIsDigit (c :: t) = isDigitChar c := rfl

theorem stringifyElems_one (e : Json) : stringifyElems [e] = stringify e := by
  rw [stringifyElems]

theorem stringifyElems_cons (e e2 : Json) (es : List Json) :
    stringifyElems (e :: e2 :: es) = stringify e ++ ',' :: stringifyElems (e2 :: es) := by
  rw [stringifyElems]
  simp

theorem stringifyMembers_one (k : List Char) (v : Json) :
    stringifyMembers [(k, v)] = quoteString k ++ ':' :: stringify v := by
  rw [stringifyMembers]

theorem stringifyMembers_cons (k : List Char) (v : Json) (m2 : List Char × Json)
    (ms : List (List Char × Json)) :
    stringifyMembers ((k, v) :: m2 :: ms) =
      quoteString k ++ ':' :: stringify v ++ ',' :: stringifyMembers (m2 :: ms) := by
  rw [stringifyMembers]
  simp

theorem stringifyElems_head (e : Json) (es : List Json) :
    ∃ c t, stringifyElems (e :: es) = c :: t ∧ isWsChar c = false ∧ ¬ c = ']' := by
  obtain ⟨c, t, hct, hws, hbr⟩ := stringify_head e
  cases es with
  | nil => exact ⟨c, t, by rw [stringifyElems_one, hct], hws, hbr⟩
  | cons e2 es2 =>
    refine ⟨c, t ++ ',' :: stringifyElems (e2 :: es2), ?_, hws, hbr⟩
    rw [stringifyElems_cons, hct]
    simp

theorem stringifyMembers_head (m : List Char × Json) (ms : List (List Char × Json)) :
    ∃ t, stringifyMembers (m :: ms) = '"' :: t := by
  obtain ⟨k, v⟩ := m
  cases ms with
  | nil =>
    refine ⟨escapeString k ++ ['"'] ++ ':' :: stringify v, ?_⟩
    rw [stringifyMembers_one, quoteString_cons]
    simp
  | cons m2 ms2 =>
    refine ⟨escapeString k ++ ['"'] ++ ':' :: stringify v ++
      ',' :: stringifyMembers (m2 :: ms2), ?_⟩
    rw [stringifyMembers_cons, quoteString_cons]
    simp

theorem parse_stringify_main : ∀ fuel : Nat,
    (∀ (j : Json) (rest : List Char),
        (stringify j).length + 1 ≤ fuel → headIsDigit rest = false →
        parseVal fuel (stringify j ++ rest) = some (j, rest)) ∧
    (∀ (es : List Json) (rest : List Char), es ≠ [] →
        (stringifyElems es).length + 2 ≤ fuel →
        parseElems fuel (stringifyElems es ++ (']' :: rest)) = some (es, rest)) ∧
    (∀ (ms : List (List Char × Json)) (rest : List Char), ms ≠ [] →
        (stringifyMembers ms).length + 2 ≤ fuel →
        parseMembers fuel (stringifyMembers ms ++ (rbrace :: rest)) = some (ms, rest)) := by
  intro fuel
  induction fuel with
  | zero =>
    refine ⟨?_, ?_, ?_⟩ <;> intros <;> omega
  | succ fuel ih =>
    obtain ⟨ihV, ihE, ihM⟩ := ih
    refine ⟨?_, ?_, ?_⟩
    · intro j rest hfuel hsafe
      cases j with
      | null => exact parseVal_null fuel rest
      | bool b => exact parseVal_bool fuel b rest
      | num n => exact parseVal_num fuel n rest hsafe
      | str s => exact parseVal_str fuel s rest
      | arr es =>
        cases es with
        | nil =>
          rw [show stringify (Json.arr []) ++ rest = '[' :: ']' :: rest from rfl]
          rw [parseVal.eq_def]
          simp only []
          rw [skipWs_cons _ _ (by decide)]
          simp only [List.cons_append]
          rw [skipWs_cons _ _ (by decide)]
          simp
        | cons e es =>
          have hlen : (stringify (Json.arr (e :: es))).length =
              (stringifyElems (e :: es)).length + 2 := by
            rw [show stringify (Json.arr (e :: es)) =
              '[' :: (stringifyElems (e :: es) ++ [']']) from rfl]
            simp
          obtain ⟨c, t, hct, hws, hbr⟩ := stringifyElems_head e es
          rw [show stringify (Json.arr (e :: es)) ++ rest =
            '[' :: (stringifyElems (e :: es) ++ (']' :: rest)) by
              rw [show stringify (Json.arr (e :: es)) =
                '[' :: (stringifyElems (e :: es) ++ [']']) from rfl]
              simp]
          rw [parseVal.eq_def]
          simp only []
          rw [skipWs_cons _ _ (by decide)]
          simp only [show ¬ ('[' : Char) = '"' by decide, if_neg, if_pos,
            show ('[' : Char) = '[' from rfl, if_true, reduceIte]
          rw [show stringifyElems (e :: es) ++ (']' :: rest) = c :: (t ++ (']' :: rest)) by
            rw [hct]; simp]
          rw [skipWs_cons _ _ hws]
          simp only [hbr, if_neg, reduceIte, if_false]
          rw [show c :: (t ++ (']' :: rest)) = stringifyElems (e :: es) ++ (']' :: rest) by
            rw [hct]; simp]
          rw [ihE (e :: es) rest (by simp) (by omega)]
          rfl
      | obj ms =>
        cases ms with
        | nil =>
          rw [show stringify (Json.obj []) ++ rest = lbrace :: rbrace :: rest from rfl]
          rw [parseVal.eq_def]
          simp only []
          rw [skipWs_cons _ _ (by decide)]
          simp only [show ¬ lbrace = '"' by decide, show ¬ lbrace = '[' by decide,
            show lbrace = lbrace from rfl, if_neg, if_pos, reduceIte, if_true, if_false]
          rw [skipWs_cons _ _ (by decide)]
          simp
        | cons m ms2 =>
          have hlen : (stringify (Json.obj (m :: ms2))).length =
              (stringifyMembers (m :: ms2)).length + 2 := by
            rw [show stringify (Json.obj (m :: ms2)) =
              lbrace :: (stringifyMembers (m :: ms2) ++ [rbrace]) from rfl]
            simp
          obtain ⟨t, hct⟩ := stringifyMembers_head m ms2
          rw [show stringify (Json.obj (m :: ms2)) ++ rest =
            lbrace :: (stringifyMembers (m :: ms2) ++ (rbrace :: rest)) by
              rw [show stringify (Json.obj (m :: ms2)) =
                lbrace :: (stringifyMembers (m :: ms2) ++ [rbrace]) from rfl]
              simp]
          rw [parseVal.eq_def]
          simp only []
          rw [skipWs_cons _ _ (by decide)]
          simp only [show ¬ lbrace = '"' by decide, show ¬ lbrace = '[' by decide,
            show lbrace = lbrace from rfl, if_neg, if_pos, reduceIte, if_true, if_false]
          rw [show stringifyMembers (m :: ms2) ++ (rbrace :: rest) =
            '"' :: (t ++ (rbrace :: rest)) by rw [hct]; simp]
          rw [skipWs_cons _ _ (by decide)]
          simp only [show ¬ ('"' : Char) = rbrace by decide, if_neg, reduceIte, if_false]
          rw [show ('"' : Char) :: (t ++ (rbrace :: rest)) =
            stringifyMembers (m :: ms2) ++ (rbrace :: rest) by rw [hct]; simp]
          rw [ihM (m :: ms2) rest (by simp) (by omega)]
          rfl
    · intro es rest hne hfuel
      cases es with
      | nil => exact absurd rfl hne
      | cons e es =>
        cases es with
        | nil =>
          have hfe : (stringify e).length + 1 ≤ fuel := by
            rw [stringifyElems_one] at hfuel
            omega
          rw [stringifyElems_one, parseElems.eq_def]
          simp only []
          rw [ihV e (']' :: rest) hfe (by rw [headIsDigit_cons]; decide)]
          simp only []
          rw [skipWs_cons _ _ (by decide)]
          simp
        | cons e2 es2 =>
          have hlen : (stringifyElems (e :: e2 :: es2)).length =
              (stringify e).length + 1 + (stringifyElems (e2 :: es2)).length := by
            rw [stringifyElems_cons]
            simp
            omega
          rw [stringifyElems_cons, parseElems.eq_def]
          simp only []
          rw [List.append_assoc, List.cons_append]
          rw [ihV e (',' :: (stringifyElems (e2 :: es2) ++ ']' :: rest)) (by omega)
            (by rw [headIsDigit_cons]; decide)]
          simp only []
          rw [skipWs_cons _ _ (by decide)]
          simp only [show (',' : Char) = ',' from rfl, if_pos, if_true, reduceIte]
          rw [ihE (e2 :: es2) rest (by simp) (by omega)]
          rfl
    · intro ms rest hne hfuel
      cases ms with
      | nil => exact absurd rfl hne
      | cons m ms2 =>
        obtain ⟨k, v⟩ := m
        have hqlen : (quoteString k).length = (escapeString k).length + 2 := by
          rw [quoteString_cons]
          simp
        cases ms2 with
        | nil =>
          have hlen : (stringifyMembers [(k, v)]).length =
              (quoteString k).length + 1 + (stringify v).length := by
            rw [stringifyMembers_one]
            simp
            omega
          rw [stringifyMembers_one, parseMembers.eq_def]
          simp only []
          rw [List.append_assoc, List.cons_append, parseStringBody_quote]
          rw [skipWs_cons _ _ (by decide)]
          simp only [show ('"' : Char) = '"' from rfl, if_pos, if_true, reduceIte]
          rw [parseStringBody_escape]
          simp only []
          rw [skipWs_cons _ _ (by decide)]
          simp only [show (':' : Char) = ':' from rfl, if_pos, if_true, reduceIte]
          rw [ihV v (rbrace :: rest) (by omega) (by rw [headIsDigit_cons]; decide)]
          simp only []
          rw [skipWs_cons _ _ (by decide)]
          simp only [show ¬ rbrace = ',' by decide, show rbrace = rbrace from rfl,
            if_neg, if_pos, if_true, if_false, reduceIte]
        | cons m2 ms3 =>
          have hlen : (stringifyMembers ((k, v) :: m2 :: ms3)).length =
              (quoteString k).length + 1 + (stringify v).length + 1 +
                (stringifyMembers (m2 :: ms3)).length := by
            rw [stringifyMembers_cons]
            simp
            omega
          rw [stringifyMembers_cons, parseMembers.eq_def]
          simp only []
          rw [List.append_assoc, List.cons_append, List.append_assoc,
            List.cons_append, parseStringBody_quote]
          rw [skipWs_cons _ _ (by decide)]
          simp only [show ('"' : Char) = '"' from rfl, if_pos, if_true, reduceIte]
          rw [parseStringBody_escape]
          simp only []
          rw [skipWs_cons _ _ (by decide)]
          simp only [show (':' : Char) = ':' from rfl, if_pos, if_true, reduceIte]
          rw [ihV v (',' :: (stringifyMembers (m2 :: ms3) ++ rbrace :: rest)) (by omega)
            (by rw [headIsDigit_cons]; decide)]
          simp only []
          rw [skipWs_cons _ _ (by decide)]
          simp only [show (',' : Char) = ',' from rfl, if_pos, if_true, reduceIte]
          rw [ihM (m2 :: ms3) rest (by simp) (by omega)]
          rfl

/-- The reader `jsonParse` inverts the printer `stringify` on the modelled JSON fragment. -/
theorem jsonParse_stringify (j : Json) : jsonParse (stringify j) = some j := by
  have h := (parse_stringify_main ((stringify j).length + 1)).1 j []
    (by omega) rfl
  rw [List.append_nil] at h
  rw [jsonParse, h]
  simp [skipWs]

/-! ## UTF-8 bytes (`Buffer.from(str, 'utf8')`) -/

/-- UTF-8 encoding of one scalar value. -/
def utf8Encode (c : Char) : List Nat :=
  let n := c.toNat
  if n < 128 then [n]
  else if n < 2048 then [192 + n / 64, 128 + n % 64]
  else if n < 65536 then [224 + n / 4096, 128 + (n / 64) % 64, 128 + n % 64]
  else [240 + n / 262144, 128 + (n / 4096) % 64, 128 + (n / 64) % 64, 128 + n % 64]

/-- UTF-8 encoding of a string. -/
def utf8Bytes : List Char → List Nat
  | [] => []
  | c :: s => utf8Encode c ++ utf8Bytes s

theorem char_toNat_lt (c : Char) : c.toNat < 1114112 := by
  rcases c.valid with h | ⟨_, h2⟩
  · exact Nat.lt_trans h (by norm_num)
  · exact h2

theorem utf8Encode_valid (c : Char) : ValidBytes (utf8Encode c) := by
  have hc := char_toNat_lt c
  intro b hb
  rw [utf8Encode] at hb
  by_cases h1 : c.toNat < 128
  · simp [h1] at hb
    omega
  · by_cases h2 : c.toNat < 2048
    · simp [h1, h2] at hb
      omega
    · by_cases h3 : c.toNat < 65536
      · simp [h1, h2, h3] at hb
        rcases hb with h | h | h <;> omega
      · simp [h1, h2, h3] at hb
        rcases hb with h | h | h | h <;> omega

theorem utf8Bytes_valid (s : List Char) : ValidBytes (utf8Bytes s) := by
  induction s with
  | nil => intro b hb; simp [utf8Bytes] at hb
  | cons c s ih =>
    intro b hb
    rw [utf8Bytes] at hb
    rcases List.mem_append.mp hb with h | h
    · exact utf8Encode_valid c b h
    · exact ih b h

/-- Decode one UTF-8 scalar from the front of a byte list. -/
def utf8DecodeOne : List Nat → Option (Nat × List Nat)
  | [] => none
  | b :: rest =>
    if b < 128 then some (b, rest)
    else if b < 224 then
      match rest with
      | b2 :: r => some ((b - 192) * 64 + (b2 - 128), r)
      | [] => none
    else if b < 240 then
      match rest with
      | b2 :: b3 :: r => some (((b - 224) * 64 + (b2 - 128)) * 64 + (b3 - 128), r)
      | _ => none
    else
      match rest with
      | b2 :: b3 :: b4 :: r =>
        some ((((b - 240) * 64 + (b2 - 128)) * 64 + (b3 - 128)) * 64 + (b4 - 128), r)
      | _ => none

theorem utf8DecodeOne_encode (c : Char) (rest : List Nat) :
    utf8DecodeOne (utf8Encode c ++ rest) = some (c.toNat, rest) := by
  have hc := char_toNat_lt c
  rw [utf8Encode]
  by_cases h1 : c.toNat < 128
  · simp only [h1, if_pos, List.cons_append, List.nil_append, utf8DecodeOne, if_true, reduceIte]
  · by_cases h2 : c.toNat < 2048
    · simp only [h1, h2, if_false, if_pos, if_true, reduceIte, List.cons_append,
        List.nil_append, utf8DecodeOne]
      rw [if_neg (by omega), if_pos (by omega)]
      have : (192 + c.toNat / 64 - 192) * 64 + (128 + c.toNat % 64 - 128) = c.toNat := by
        omega
      rw [this]
    · by_cases h3 : c.toNat < 65536
      · simp only [h1, h2, h3, if_false, if_pos, if_true, reduceIte, List.cons_append,
          List.nil_append, utf8DecodeOne]
        rw [if_neg (by omega), if_neg (by omega), if_pos (by omega)]
        have : ((224 + c.toNat / 4096 - 224) * 64 + (128 + c.toNat / 64 % 64 - 128)) * 64 +
            (128 + c.toNat % 64 - 128) = c.toNat := by
          omega
        rw [this]
      · simp only [h1, h2, h3, if_false, reduceIte, List.cons_append,
          List.nil_append, utf8DecodeOne]
        rw [if_neg (by omega), if_neg (by omega), if_neg (by omega)]
        have : (((240 + c.toNat / 262144 - 240) * 64 + (128 + c.toNat / 4096 % 64 - 128)) * 64 +
            (128 + c.toNat / 64 % 64 - 128)) * 64 + (128 + c.toNat % 64 - 128) = c.toNat := by
          omega
        rw [this]

theorem utf8Encode_ne_nil (c : Char) : utf8Encode c ≠ [] := by
  rw [utf8Encode]
  by_cases h1 : c.toNat < 128
  · simp [h1]
  · by_cases h2 : c.toNat < 2048
    · simp [h1, h2]
    · by_cases h3 : c.toNat < 65536 <;> simp [h1, h2, h3]

theorem utf8Bytes_injective : Function.Injective utf8Bytes := by
  intro s1
  induction s1 with
  | nil =>
    intro s2 h
    cases s2 with
    | nil => rfl
    | cons c2 t2 =>
      rw [utf8Bytes, utf8Bytes] at h
      exact absurd (List.append_eq_nil.mp h.symm).1 (utf8Encode_ne_nil c2)
  | cons c1 t1 ih =>
    intro s2 h
    cases s2 with
    | nil =>
      rw [utf8Bytes, utf8Bytes] at h
      exact absurd (List.append_eq_nil.mp h).1 (utf8Encode_ne_nil c1)
    | cons c2 t2 =>
      rw [utf8Bytes, utf8Bytes] at h
      have hd : utf8DecodeOne (utf8Encode c1 ++ utf8Bytes t1) =
          utf8DecodeOne (utf8Encode c2 ++ utf8Bytes t2) := by rw [h]
      rw [utf8DecodeOne_encode, utf8DecodeOne_encode] at hd
      have hn : c1.toNat = c2.toNat := by
        have := congrArg (fun p => (Option.map Prod.fst p).getD 0) hd
        simpa using this
      have hc : c1 = c2 := by
        rw [← Char.ofNat_toNat c1, ← Char.ofNat_toNat c2, hn]
      have ht : utf8Bytes t1 = utf8Bytes t2 := by
        have := congrArg (fun p => (Option.map Prod.snd p).getD []) hd
        simpa using this
      rw [hc, ih ht]

/-! ## Ideal KEM and symmetric cipher (modelled third-party primitives)

`@noble/post-quantum`'s `ml_kem768` and CryptoJS's AES-CBC/PKCS7 are
third-party dependencies, not repository code.  They are modelled as
ideal deterministic executable primitives exposing exactly the contract
the repository relies on: a pair generated together matches only itself,
decapsulating a ciphertext with the matching private key recovers the
encapsulated secret, a mismatched private key yields a different secret
(implicit rejection), and symmetric decryption under a wrong key fails
its padding/UTF-8 check rather than returning plaintext. -/

structure KeyPair where
  publicKey : List Nat
  privateKey : List Nat
deriving DecidableEq

/-- Modelled ideal `ml_kem768.keygen`, the generator's internal randomness
`seed` made explicit.  Distinct leading tags keep the public/private key
spaces apart; the shared `seed` records that the two halves were produced
by the same call. -/
def kemKeygen (seed : List Nat) : KeyPair :=
  { publicKey := 80 :: seed, privateKey := 83 :: seed }

/-- The public key matching a modelled KEM private key. -/
def kemPubOf (priv : List Nat) : List Nat := 80 :: priv.tail

/-- The shared secret the ideal KEM derives from a public key and the
encapsulation randomness. -/
def kemSecret (pub rand : List Nat) : List Nat := pub ++ rand

/-- Modelled ideal `ml_kem768.encapsulate`: fresh 32-byte internal
randomness `rand` made explicit; returns `(cipherText, sharedSecret)`. -/
def kemEncapsulate (pub rand : List Nat) : List Nat × List Nat :=
  (rand ++ pub, kemSecret pub rand)

/-- Modelled ideal `ml_kem768.decapsulate` with implicit rejection: a
mismatched private key yields a different (garbage) secret, not an error. -/
def kemDecapsulate (ct priv : List Nat) : List Nat :=
  let rand := ct.take 32
  let pub := ct.drop 32
  if pub = kemPubOf priv then kemSecret pub rand
  else 255 :: kemSecret pub rand

/-- Modelled CryptoJS AES-CBC/PKCS7 ciphertext: the opaque string
`encrypted.toString()`, determined by key, IV and plaintext. -/
structure SymCiphertext where
  key : List Nat
  iv : List Nat
  plain : List Char
deriving DecidableEq

/-- Modelled `CryptoJS.AES.encrypt` (CBC mode, PKCS7 padding). -/
def aesEncrypt (key iv : List Nat) (plain : List Char) : SymCiphertext :=
  { key := key, iv := iv, plain := plain }

/-- Modelled `CryptoJS.AES.decrypt` followed by the UTF-8 decode: with the
matching key and IV the plaintext comes back; under any other key the
padding check / UTF-8 decode fails (`none`), which the caller's `catch`
turns into its decryption error. -/
def aesDecrypt (key iv : List Nat) (ct : SymCiphertext) : Option (List Char) :=
  if ct.key = key ∧ ct.iv = iv then some ct.plain else none

/-! ## The envelope codec (`encryptData` / `decryptData`) -/

/-- The test `typeof data === 'object'` over the modelled JS values (`null` counts
as an object in JavaScript, as do arrays). -/
def isObjectType : Json → Bool
  | .null => true
  | .arr _ => true
  | .obj _ => true
  | _ => false

/-- Line 129 / 217 / 250 of the crypto utility:
`typeof data === 'object' ? JSON.stringify(data) : data`.  A string passes
through unserialized; an object is stringified; for the remaining scalar
types the raw non-string value reaches CryptoJS/`Buffer.from` and the
call fails, so they surface as `none` here. -/
def dataToString (data : Json) : Option (List Char) :=
  if isObjectType data then some (stringify data)
  else
    match data with
    | .str s => some s
    | _ => none

/-- The persisted form of one encrypted value, as `encryptData` returns it:
hex-encoded KEM ciphertext, opaque symmetric ciphertext, hex-encoded IV. -/
structure Envelope where
  ciphertext : List Char
  encryptedData : SymCiphertext
  iv : List Char
deriving DecidableEq

/-- Embedding of `encryptData` (crypto utility lines 126–162), with the loaded Kyber
pair and the two randomness sources (KEM encapsulation randomness and the
16-byte AES IV) made explicit inputs.  `throw new Error('Failed to encrypt
data')` is modelled as `Except.error`. -/
def encryptData (keys : KeyPair) (rand ivBytes : List Nat) (data : Json) :
    Except String Envelope :=
  match dataToString data with
  | none => .error "Failed to encrypt data"
  | some dataString =>
    let ep := kemEncapsulate keys.publicKey rand
    let aesKey := ep.2
    let encrypted := aesEncrypt aesKey ivBytes dataString
    .ok { ciphertext := hexEncode ep.1, encryptedData := encrypted, iv := hexEncode ivBytes }

/-- Embedding of `decryptData` (crypto utility lines 169–207): decapsulate with the
private key, AES-decrypt, then `JSON.parse` the recovered text, falling
back to the raw string when it is not valid JSON.  Any symmetric-decryption
failure is caught and rethrown as `'Failed to decrypt data'`. -/
def decryptData (keys : KeyPair) (pkg : Envelope) : Except String Json :=
  let sharedSecret := kemDecapsulate (hexDecode pkg.ciphertext) keys.privateKey
  let aesKey := sharedSecret
  let ivValue := hexDecode pkg.iv
  match aesDecrypt aesKey ivValue pkg.encryptedData with
  | none => .error "Failed to decrypt data"
  | some decryptedText =>
    match jsonParse decryptedText with
    | some j => .ok j
    | none => .ok (Json.str decryptedText)

/-! ## Key store (file persistence model, `loadOrGenerateKyberKeys`) -/

/-- One persisted key file: absent, readable with the given text, or
present but unreadable (reading it throws). -/
inductive KeyFile where
  | absent : KeyFile
  | readable (content : List Char) : KeyFile
  | unreadable : KeyFile
deriving DecidableEq

/-- Model of `fs.existsSync` on a key file. -/
def KeyFile.existsSync : KeyFile → Bool
  | .absent => false
  | _ => true

/-- Model of `fs.readFileSync` on a key file; `none` models a throw. -/
def KeyFile.readSync : KeyFile → Option (List Char)
  | .readable c => some c
  | _ => none

/-- The two files backing one scheme's persisted key pair. -/
structure KeyStoreState where
  privFile : KeyFile
  pubFile : KeyFile
deriving DecidableEq

/-- Embedding of `generateKyberKeys` (lines 47–62): run the KEM keygen primitive (its
internal randomness `seed` explicit), persist both halves hex-encoded,
return the pair. -/
def generateKyberKeys (seed : List Nat) (_st : KeyStoreState) :
    KeyPair × KeyStoreState :=
  let pair := kemKeygen seed
  (pair,
   { privFile := .readable (hexEncode pair.privateKey),
     pubFile := .readable (hexEncode pair.publicKey) })

/-- Embedding of `loadOrGenerateKyberKeys` (lines 89–101): if both files exist, read and
hex-decode them; the files-absent case generates, and — per the `catch`
block — so does any read failure, silently. -/
def loadOrGenerateKyberKeys (seed : List Nat) (st : KeyStoreState) :
    KeyPair × KeyStoreState :=
  if st.privFile.existsSync && st.pubFile.existsSync then
    match st.privFile.readSync, st.pubFile.readSync with
    | some privHex, some pubHex =>
      ({ publicKey := hexDecode pubHex, privateKey := hexDecode privHex }, st)
    | _, _ => generateKyberKeys seed st
  else generateKyberKeys seed st

/-! ## Ideal signature scheme (modelled `ml_dsa65`) and signer/verifier -/

/-- Modelled ideal `ml_dsa65.keygen` (internal randomness `seed` explicit). -/
def dsaKeygen (seed : List Nat) : KeyPair :=
  { publicKey := 68 :: seed, privateKey := 100 :: seed }

/-- The public key matching a modelled DSA private key. -/
def dsaPubOf (priv : List Nat) : List Nat := 68 :: priv.tail

/-- Modelled ideal `ml_dsa65.sign`: an ideal EUF-CMA signature binds the
exact message bytes and the signer's key pair; any other byte sequence is
rejected by `verify`.  The deterministic model realises that contract. -/
def dsaSign (msg priv : List Nat) : List Nat := dsaPubOf priv ++ msg

/-- Modelled ideal `ml_dsa65.verify`. -/
def dsaVerify (msg sig pub : List Nat) : Bool := sig == pub ++ msg

/-- The `{ data, signature }` package returned by `signData`; the
signature travels hex-encoded. -/
structure SignedPackage where
  data : Json
  signature : List Char

/-- Embedding of `signData` (crypto utility lines 214–238), with the loaded Dilithium
pair explicit: serialize, sign the UTF-8 bytes, hex-encode the signature,
return it with the original data.  A non-string, non-object scalar makes
`Buffer.from` throw inside the `try`, surfacing as
`'Failed to sign data'`. -/
def signData (keys : KeyPair) (data : Json) : Except String SignedPackage :=
  match dataToString data with
  | none => .error "Failed to sign data"
  | some dataString =>
    .ok { data := data,
          signature := hexEncode (dsaSign (utf8Bytes dataString) keys.privateKey) }

/-- The body of `verifySignature`'s `try` block (crypto utility lines
245–267): re-serialize the packaged data, hex-decode the signature, run the
verification primitive.  An `Except.error` is a thrown exception inside
the `try`. -/
def verifyAttempt (keys : KeyPair) (pkg : SignedPackage) : Except String Bool :=
  match dataToString pkg.data with
  | none => .error "Failed to verify signature"
  | some dataString =>
    .ok (dsaVerify (utf8Bytes dataString) (hexDecode pkg.signature) keys.publicKey)

/-- Embedding of `verifySignature`: the `catch` block maps every thrown failure to the
definite boolean `false`; the function is total and boolean-valued. -/
def verifySignature (keys : KeyPair) (pkg : SignedPackage) : Bool :=
  match verifyAttempt keys pkg with
  | .ok b => b
  | .error _ => false

/-! ## Field interception adapter (mongoose encryption plugin model)

`encryptionPlugin` stores per-field envelope parts in three `Map`s on the
record (`_encrypted`, `_encryptedCiphers`, `_encryptedIVs`).  Maps and
plain objects are modelled as association lists with JavaScript `Map.set`
/ property-assignment semantics. -/

/-- Model of `Map.get` / property read; `none` is JavaScript `undefined`. -/
def mapGet {α : Type} : List (String × α) → String → Option α
  | [], _ => none
  | (k1, v) :: rest, k => if k1 = k then some v else mapGet rest k

/-- Model of `Map.set` / property write. -/
def mapSet {α : Type} : List (String × α) → String → α → List (String × α)
  | [], k, v => [(k, v)]
  | (k1, v1) :: rest, k, v =>
    if k1 = k then (k, v) :: rest else (k1, v1) :: mapSet rest k v

/-- Model of `delete obj[k]`. -/
def removeKey {α : Type} (l : List (String × α)) (k : String) : List (String × α) :=
  l.filter (fun p => !(p.1 == k))

theorem mapGet_mapSet_self {α : Type} (l : List (String × α)) (k : String) (v : α) :
    mapGet (mapSet l k v) k = some v := by
  induction l with
  | nil => simp [mapSet, mapGet]
  | cons p rest ih =>
    obtain ⟨k1, v1⟩ := p
    by_cases h : k1 = k
    · simp [mapSet, h, mapGet]
    · simp [mapSet, h, mapGet, ih]

theorem mapGet_mapSet_ne {α : Type} (l : List (String × α)) (k k2 : String) (v : α)
    (h : ¬ k2 = k) : mapGet (mapSet l k v) k2 = mapGet l k2 := by
  induction l with
  | nil => simp [mapSet, mapGet, Ne.symm h]
  | cons p rest ih =>
    obtain ⟨k1, v1⟩ := p
    by_cases h1 : k1 = k
    · subst h1
      simp [mapSet, mapGet, Ne.symm h]
    · by_cases h2 : k1 = k2
      · subst h2
        simp [mapSet, h1, mapGet]
      · simp [mapSet, h1, mapGet, h2, ih]

theorem removeKey_cons {α : Type} (k1 : String) (v1 : α) (rest : List (String × α))
    (k : String) :
    removeKey ((k1, v1) :: rest) k =
      if k1 = k then removeKey rest k else (k1, v1) :: removeKey rest k := by
  by_cases h : k1 = k <;> simp [removeKey, List.filter_cons, h]

theorem mapGet_removeKey {α : Type} (l : List (String × α)) (k k2 : String) :
    mapGet (removeKey l k) k2 = if k2 = k then none else mapGet l k2 := by
  induction l with
  | nil => simp [removeKey, mapGet]
  | cons p rest ih =>
    obtain ⟨k1, v1⟩ := p
    rw [removeKey_cons]
    by_cases h1 : k1 = k
    · rw [if_pos h1, ih]
      subst h1
      by_cases h2 : k2 = k1
      · simp [h2]
      · simp [h2, mapGet, Ne.symm h2]
    · rw [if_neg h1]
      by_cases h2 : k2 = k1
      · subst h2
        simp [mapGet, h1]
      · simp [mapGet, Ne.symm h2, ih]

/-- A mongoose document as the plugin sees it: declared-field values
(`none` is an undefined/absent field), the set of paths `isModified`
reports, and the three envelope maps. -/
structure EncDoc where
  vals : List (String × Json)
  modified : List String
  encrypted : List (String × SymCiphertext)
  encryptedCiphers : List (String × List Char)
  encryptedIVs : List (String × List Char)

/-- The skip condition of plugin line 164: `undefined` and `null` values
are skipped; every other value (the empty string included) is passed on
to `encryptData`. -/
def presentValue : Option Json → Option Json
  | none => none
  | some Json.null => none
  | some v => some v

/-- The plugin's pre-save hook (User.js embedding, plugin lines 158–186),
iterating the declared `encryptedFields`: skip a field unless it
`isModified` and its value is neither `undefined` nor `null`; otherwise
encrypt it (`encryptData`, per-field randomness `randOf`/`ivOf` explicit)
and store the three envelope parts under the field name.  An encryption
error aborts the save (`next(error)`). -/
def preSaveEncrypt (keys : KeyPair) (randOf ivOf : String → List Nat) :
    List String → EncDoc → Except String EncDoc
  | [], d => .ok d
  | field :: fields, d =>
    if field ∈ d.modified then
      match presentValue (mapGet d.vals field) with
      | none => preSaveEncrypt keys randOf ivOf fields d
      | some v =>
        match encryptData keys (randOf field) (ivOf field) v with
        | .error e => .error e
        | .ok env =>
          preSaveEncrypt keys randOf ivOf fields
            { d with
              encrypted := mapSet d.encrypted field env.encryptedData,
              encryptedCiphers := mapSet d.encryptedCiphers field env.ciphertext,
              encryptedIVs := mapSet d.encryptedIVs field env.iv }
    else preSaveEncrypt keys randOf ivOf fields d

/-- Embedding of `decryptField` (plugin lines 196–226): reject undeclared fields; when
any of the three envelope parts is missing or falsy (absent entry, or an
empty hex string) return the stored value unchanged; otherwise decrypt,
rethrowing a decryption failure. -/
def decryptField (keys : KeyPair) (encryptedFields : List String) (d : EncDoc)
    (field : String) : Except String (Option Json) :=
  if field ∈ encryptedFields then
    match mapGet d.encrypted field, mapGet d.encryptedCiphers field,
        mapGet d.encryptedIVs field with
    | some e, some c, some i =>
      if c.isEmpty || i.isEmpty then .ok (mapGet d.vals field)
      else
        match decryptData keys { ciphertext := c, encryptedData := e, iv := i } with
        | .ok v => .ok (some v)
        | .error err => .error err
    | _, _, _ => .ok (mapGet d.vals field)
  else .error "Field is not configured for encryption"

/-- Embedding of `decryptFields` (plugin lines 229–243): decrypt every declared field,
catching each field's failure individually and falling back to that
field's raw stored value. -/
def decryptFields (keys : KeyPair) (encryptedFields : List String) (d : EncDoc) :
    List (String × Option Json) :=
  encryptedFields.map (fun f =>
    (f, match decryptField keys encryptedFields d f with
        | .ok v => v
        | .error _ => mapGet d.vals f))

/-! ## Safe projections (`toSafeJSON`)

Only key presence matters to the claims, so the plain object produced by
`this.toObject()` is modelled with an opaque value type `α`; the
`Object.assign` merge and the four `delete` statements follow the source
order.  The decrypt attempt is abstracted as an `Except` so both the
successful branch and the `catch` branch are covered. -/

/-- Embedding of `userSchema.methods.toSafeJSON` (User.js lines 87–115): merge the
decrypted fields on success, then delete the three envelope keys and
`password`; on a thrown error, delete the same keys from the plain object
and return it. -/
def userToSafeJSON {α : Type} (user : List (String × α))
    (decryptAttempt : Except String (List (String × α))) : List (String × α) :=
  match decryptAttempt with
  | .ok decryptedFields =>
    let merged := decryptedFields.foldl (fun acc p => mapSet acc p.1 p.2) user
    removeKey (removeKey (removeKey (removeKey merged
      "_encrypted") "_encryptedCiphers") "_encryptedIVs") "password"
  | .error _ =>
    removeKey (removeKey (removeKey (removeKey user
      "_encrypted") "_encryptedCiphers") "_encryptedIVs") "password"

/-- Embedding of `batchSchema.methods.toSafeJSON` (User.js embedding lines 315–339):
as for users but without a `password` key to delete. -/
def batchToSafeJSON {α : Type} (batch : List (String × α))
    (decryptAttempt : Except String (List (String × α))) : List (String × α) :=
  match decryptAttempt with
  | .ok decryptedFields =>
    let merged := decryptedFields.foldl (fun acc p => mapSet acc p.1 p.2) batch
    removeKey (removeKey (removeKey merged
      "_encrypted") "_encryptedCiphers") "_encryptedIVs"
  | .error _ =>
    removeKey (removeKey (removeKey batch
      "_encrypted") "_encryptedCiphers") "_encryptedIVs"

/-! ## Claim C1 and C2: the envelope round trip -/

theorem validBytes_cons (b : Nat) (bs : List Nat) (hb : b < 256) (h : ValidBytes bs) :
    ValidBytes (b :: bs) := by
  intro x hx
  rcases List.mem_cons.mp hx with h1 | h1
  · omega
  · exact h x h1

theorem validBytes_append (l1 l2 : List Nat) (h1 : ValidBytes l1) (h2 : ValidBytes l2) :
    ValidBytes (l1 ++ l2) := fun b hb =>
  (List.mem_append.mp hb).elim (h1 b) (h2 b)

/-- What `decryptData` does to the exact envelope `encryptData` built with
the matching pair: the symmetric layer opens and the recovered text goes
through the `JSON.parse`-with-string-fallback step. -/
theorem decryptData_of_envelope (seed rand ivBytes : List Nat) (ds : List Char)
    (hseed : ValidBytes seed) (hrand : ValidBytes rand) (hlen : rand.length = 32)
    (hiv : ValidBytes ivBytes) :
    decryptData (kemKeygen seed)
      { ciphertext := hexEncode (rand ++ (80 :: seed)),
        encryptedData := aesEncrypt (kemSecret (80 :: seed) rand) ivBytes ds,
        iv := hexEncode ivBytes } =
      (match jsonParse ds with
       | some j => .ok j
       | none => .ok (Json.str ds)) := by
  have hct : hexDecode (hexEncode (rand ++ (80 :: seed))) = rand ++ (80 :: seed) :=
    hexDecode_hexEncode _ (validBytes_append _ _ hrand (validBytes_cons _ _ (by omega) hseed))
  have hivh : hexDecode (hexEncode ivBytes) = ivBytes := hexDecode_hexEncode _ hiv
  have htake : (rand ++ (80 :: seed)).take 32 = rand := by
    rw [← hlen]
    exact List.take_left _ _
  have hdrop : (rand ++ (80 :: seed)).drop 32 = 80 :: seed := by
    rw [← hlen]
    exact List.drop_left _ _
  rw [decryptData]
  simp only [hct, hivh, kemDecapsulate, htake, hdrop]
  rw [if_pos (show (80 : Nat) :: seed = kemPubOf (kemKeygen seed).privateKey from rfl)]
  rw [show aesDecrypt (kemSecret (80 :: seed) rand) ivBytes
      (aesEncrypt (kemSecret (80 :: seed) rand) ivBytes ds) = some ds by
    rw [aesEncrypt, aesDecrypt]
    simp]

/-- The values the round-trip claim quantifies over ("string or structured
value"), restricted — as the counterexample below forces — to strings the
decoder does not itself read as JSON text. -/
def roundTripSafe : Json → Prop
  | .str s => jsonParse s = none
  | .num _ => False
  | .bool _ => False
  | _ => True

/-- C1 (amended): for structured values, and for strings that do not parse
as JSON text, decrypting the envelope produced by encrypting with the
process's Kyber pair returns the value exactly, structure and type
included.  (A string that is itself valid JSON text comes back as the
parsed value instead — see the counterexample.) -/
theorem encryptData_decryptData_roundTrip (seed rand ivBytes : List Nat) (data : Json)
    (hseed : ValidBytes seed) (hrand : ValidBytes rand) (hlen : rand.length = 32)
    (hiv : ValidBytes ivBytes) (hsafe : roundTripSafe data) :
    ∃ env, encryptData (kemKeygen seed) rand ivBytes data = .ok env ∧
      decryptData (kemKeygen seed) env = .ok data := by
  have hcore := decryptData_of_envelope seed rand ivBytes
  cases data with
  | num n => exact hsafe.elim
  | bool b => exact hsafe.elim
  | str s =>
    refine ⟨_, rfl, ?_⟩
    show decryptData (kemKeygen seed)
      { ciphertext := hexEncode (rand ++ (80 :: seed)),
        encryptedData := aesEncrypt (kemSecret (80 :: seed) rand) ivBytes s,
        iv := hexEncode ivBytes } = Except.ok (Json.str s)
    rw [hcore s hseed hrand hlen hiv]
    rw [show jsonParse s = none from hsafe]
  | null =>
    refine ⟨_, rfl, ?_⟩
    show decryptData (kemKeygen seed)
      { ciphertext := hexEncode (rand ++ (80 :: seed)),
        encryptedData := aesEncrypt (kemSecret (80 :: seed) rand) ivBytes
          (stringify Json.null),
        iv := hexEncode ivBytes } = Except.ok Json.null
    rw [hcore (stringify Json.null) hseed hrand hlen hiv, jsonParse_stringify]
  | arr es =>
    refine ⟨_, rfl, ?_⟩
    show decryptData (kemKeygen seed)
      { ciphertext := hexEncode (rand ++ (80 :: seed)),
        encryptedData := aesEncrypt (kemSecret (80 :: seed) rand) ivBytes
          (stringify (Json.arr es)),
        iv := hexEncode ivBytes } = Except.ok (Json.arr es)
    rw [hcore (stringify (Json.arr es)) hseed hrand hlen hiv, jsonParse_stringify]
  | obj ms =>
    refine ⟨_, rfl, ?_⟩
    show decryptData (kemKeygen seed)
      { ciphertext := hexEncode (rand ++ (80 :: seed)),
        encryptedData := aesEncrypt (kemSecret (80 :: seed) rand) ivBytes
          (stringify (Json.obj ms)),
        iv := hexEncode ivBytes } = Except.ok (Json.obj ms)
    rw [hcore (stringify (Json.obj ms)) hseed hrand hlen hiv, jsonParse_stringify]

/-- C1 (counterexample to the claim as stated): the string `"123"` comes
back from the round trip as the number `123` — `decryptData` feeds the
recovered text to `JSON.parse` and a numeric string is valid JSON text —
so the original scalar type is not preserved. -/
theorem encryptData_decryptData_not_inverse_on_numeric_string :
    ∃ env,
      encryptData (kemKeygen [1]) (List.replicate 32 2) (List.replicate 16 3)
        (Json.str ['1', '2', '3']) = Except.ok env ∧
      decryptData (kemKeygen [1]) env = Except.ok (Json.num 123) ∧
      Except.ok (ε := String) (Json.num 123) ≠ Except.ok (Json.str ['1', '2', '3']) := by
  refine ⟨_, rfl, rfl, ?_⟩
  simp

/-- C1 (witness): the amended round trip, instantiated on a structured
value. -/
theorem encryptData_decryptData_roundTrip_witness :
    ∃ env,
      encryptData (kemKeygen [1]) (List.replicate 32 2) (List.replicate 16 3)
        (Json.obj [(['a'], Json.bool true)]) = .ok env ∧
      decryptData (kemKeygen [1]) env = .ok (Json.obj [(['a'], Json.bool true)]) :=
  encryptData_decryptData_roundTrip [1] (List.replicate 32 2) (List.replicate 16 3)
    (Json.obj [(['a'], Json.bool true)]) (by decide) (by decide) (by decide) (by decide)
    trivial

/-- C2: decrypting an envelope produced under pair A with the private key
of an unrelated pair B fails with the decryption error — the decapsulated
secret differs, the symmetric layer rejects, and the `catch` rethrows
`'Failed to decrypt data'` — and never silently returns a value. -/
theorem decryptData_key_mismatch (seedA seedB rand ivBytes : List Nat) (data : Json)
    (env : Envelope) (hA : ValidBytes seedA) (hrand : ValidBytes rand)
    (hlen : rand.length = 32) (hne : ¬ seedB = seedA)
    (henc : encryptData (kemKeygen seedA) rand ivBytes data = .ok env) :
    decryptData (kemKeygen seedB) env = .error "Failed to decrypt data" := by
  rw [encryptData] at henc
  cases hds : dataToString data with
  | none =>
    rw [hds] at henc
    exact absurd henc (by simp)
  | some ds =>
    rw [hds] at henc
    simp only [Except.ok.injEq] at henc
    subst henc
    have hct : hexDecode (hexEncode (rand ++ (80 :: seedA))) = rand ++ (80 :: seedA) :=
      hexDecode_hexEncode _
        (validBytes_append _ _ hrand (validBytes_cons _ _ (by omega) hA))
    have htake : (rand ++ (80 :: seedA)).take 32 = rand := by
      rw [← hlen]
      exact List.take_left _ _
    have hdrop : (rand ++ (80 :: seedA)).drop 32 = 80 :: seedA := by
      rw [← hlen]
      exact List.drop_left _ _
    rw [decryptData]
    simp only [show (kemKeygen seedA).publicKey = 80 :: seedA from rfl,
      kemEncapsulate, kemDecapsulate, hct, htake, hdrop]
    rw [if_neg (show ¬ (80 : Nat) :: seedA = kemPubOf (kemKeygen seedB).privateKey by
      intro h
      rw [show kemPubOf (kemKeygen seedB).privateKey = 80 :: seedB from rfl] at h
      exact hne (List.cons.injEq _ _ _ _ ▸ h).2.symm)]
    rw [show aesDecrypt (255 :: kemSecret (80 :: seedA) rand) (hexDecode (hexEncode ivBytes))
        (aesEncrypt (kemSecret (80 :: seedA) rand) ivBytes ds) = none by
      rw [aesEncrypt, aesDecrypt]
      rw [if_neg]
      intro hcontra
      have := congrArg List.length hcontra.1
      simp at this]

/-- C2 (witness): a concrete envelope under pair A rejected under pair B. -/
theorem decryptData_key_mismatch_witness :
    ∃ env,
      encryptData (kemKeygen [1]) (List.replicate 32 2) (List.replicate 16 3)
        (Json.str ['x']) = .ok env ∧
      decryptData (kemKeygen [2]) env = .error "Failed to decrypt data" := by
  refine ⟨_, rfl, ?_⟩
  exact decryptData_key_mismatch [1] [2] (List.replicate 32 2) (List.replicate 16 3)
    (Json.str ['x']) _ (by decide) (by decide) (by decide) (by decide) rfl

/-! ## Claim C3 and C6: key loading -/

/-- C3 (behaviour at the failing input): when the key files exist but
reading the private key file throws, `loadOrGenerateKyberKeys`'s `catch`
silently generates and persists a brand-new pair — the failure is not
propagated to the caller (the function has no failure outcome at all),
and the on-disk files are overwritten. -/
theorem loadOrGenerateKyberKeys_regenerates_on_read_failure
    (seed : List Nat) (pubContent : List Char) :
    loadOrGenerateKyberKeys seed
        { privFile := .unreadable, pubFile := .readable pubContent } =
      (kemKeygen seed,
       { privFile := .readable (hexEncode (kemKeygen seed).privateKey),
         pubFile := .readable (hexEncode (kemKeygen seed).publicKey) }) ∧
    ({ privFile := .unreadable, pubFile := .readable pubContent } : KeyStoreState) ≠
      (loadOrGenerateKyberKeys seed
        { privFile := .unreadable, pubFile := .readable pubContent }).2 := by
  constructor
  · rfl
  · intro h
    have h2 : KeyFile.unreadable =
        KeyFile.readable (hexEncode (kemKeygen seed).privateKey) :=
      congrArg KeyStoreState.privFile h
    exact KeyFile.noConfusion h2

/-- C6: running the load-or-generate path twice in sequence returns
byte-identical key pairs and leaves the key files unchanged the second
time, whatever the starting on-disk state — in particular when the files
were already written and are read back through the hex decoding. -/
theorem loadOrGenerateKyberKeys_idempotent (seed seed2 : List Nat)
    (st : KeyStoreState) (hseed : ValidBytes seed) :
    (loadOrGenerateKyberKeys seed2 (loadOrGenerateKyberKeys seed st).2).1 =
      (loadOrGenerateKyberKeys seed st).1 ∧
    (loadOrGenerateKyberKeys seed2 (loadOrGenerateKyberKeys seed st).2).2 =
      (loadOrGenerateKyberKeys seed st).2 := by
  have hpriv : hexDecode (hexEncode ((83 : Nat) :: seed)) = 83 :: seed :=
    hexDecode_hexEncode _ (validBytes_cons _ _ (by omega) hseed)
  have hpub : hexDecode (hexEncode ((80 : Nat) :: seed)) = 80 :: seed :=
    hexDecode_hexEncode _ (validBytes_cons _ _ (by omega) hseed)
  obtain ⟨pf, qf⟩ := st
  have hgen :
      (loadOrGenerateKyberKeys seed2 (generateKyberKeys seed ⟨pf, qf⟩).2).1 =
        (generateKyberKeys seed ⟨pf, qf⟩).1 ∧
      (loadOrGenerateKyberKeys seed2 (generateKyberKeys seed ⟨pf, qf⟩).2).2 =
        (generateKyberKeys seed ⟨pf, qf⟩).2 := by
    rw [generateKyberKeys, loadOrGenerateKyberKeys]
    simp only [KeyFile.existsSync, KeyFile.readSync, Bool.and_self, if_true, reduceIte]
    rw [show (kemKeygen seed).privateKey = 83 :: seed from rfl,
      show (kemKeygen seed).publicKey = 80 :: seed from rfl, hpriv, hpub]
    refine ⟨?_, ?_⟩ <;> first
      | rfl
      | trivial
  cases pf with
  | readable c1 =>
    cases qf with
    | readable c2 => exact ⟨rfl, rfl⟩
    | absent => exact hgen
    | unreadable => exact hgen
  | absent =>
    cases qf with
    | readable c2 => exact hgen
    | absent => exact hgen
    | unreadable => exact hgen
  | unreadable =>
    cases qf with
    | readable c2 => exact hgen
    | absent => exact hgen
    | unreadable => exact hgen

/-- C6 (witness): both calls starting from an empty key directory return
the identical freshly generated pair. -/
theorem loadOrGenerateKyberKeys_idempotent_witness :
    (loadOrGenerateKyberKeys [9]
        (loadOrGenerateKyberKeys [1] ⟨.absent, .absent⟩).2).1 =
      (loadOrGenerateKyberKeys [1] ⟨.absent, .absent⟩).1 ∧
    (loadOrGenerateKyberKeys [9]
        (loadOrGenerateKyberKeys [1] ⟨.absent, .absent⟩).2).2 =
      (loadOrGenerateKyberKeys [1] ⟨.absent, .absent⟩).2 :=
  loadOrGenerateKyberKeys_idempotent [1] [9] ⟨.absent, .absent⟩ (by decide)

/-! ## Claim C4 and C5: the signer/verifier -/

/-- C4: `verifySignature` is a total boolean function (its type), every
failure inside the `try` body surfaces as the definite boolean `false`
rather than an exception, and a `true` can only come from a successful
run of the verification primitive. -/
theorem verifySignature_false_on_failure (keys : KeyPair) (pkg : SignedPackage) :
    (∀ e, verifyAttempt keys pkg = .error e → verifySignature keys pkg = false) ∧
    (verifySignature keys pkg = true → verifyAttempt keys pkg = .ok true) := by
  constructor
  · intro e h
    rw [verifySignature, h]
  · intro h
    rw [verifySignature] at h
    cases ha : verifyAttempt keys pkg with
    | error e => rw [ha] at h; exact absurd h (by simp)
    | ok b =>
      rw [ha] at h
      have hb : b = true := h
      rw [hb]

/-- C4 (witness): a malformed input — a raw number reaching `Buffer.from`
— throws inside the `try` and comes out as `false`. -/
theorem verifySignature_false_on_failure_witness :
    verifyAttempt (dsaKeygen [1]) { data := Json.num 5, signature := [] } =
      .error "Failed to verify signature" ∧
    verifySignature (dsaKeygen [1]) { data := Json.num 5, signature := [] } = false :=
  ⟨rfl, (verifySignature_false_on_failure (dsaKeygen [1])
    { data := Json.num 5, signature := [] }).1 _ rfl⟩

/-- C5: for any string payload under the process's Dilithium pair, the
signature produced by `signData` verifies; verification fails for any
different payload, for any signature whose bytes differ, and against the
public key of any other pair. -/
theorem signData_verifySignature_spec (seed : List Nat) (s : List Char)
    (hseed : ValidBytes seed) :
    signData (dsaKeygen seed) (Json.str s) =
      .ok { data := Json.str s,
            signature := hexEncode (dsaSign (utf8Bytes s) (dsaKeygen seed).privateKey) } ∧
    verifySignature (dsaKeygen seed)
      { data := Json.str s,
        signature := hexEncode (dsaSign (utf8Bytes s) (dsaKeygen seed).privateKey) } =
      true ∧
    (∀ s2 : List Char, ¬ s2 = s →
      verifySignature (dsaKeygen seed)
        { data := Json.str s2,
          signature := hexEncode (dsaSign (utf8Bytes s) (dsaKeygen seed).privateKey) } =
        false) ∧
    (∀ sig2 : List Char,
      ¬ hexDecode sig2 = dsaSign (utf8Bytes s) (dsaKeygen seed).privateKey →
      verifySignature (dsaKeygen seed) { data := Json.str s, signature := sig2 } = false) ∧
    (∀ seedB : List Nat, ¬ seedB = seed →
      verifySignature (dsaKeygen seedB)
        { data := Json.str s,
          signature := hexEncode (dsaSign (utf8Bytes s) (dsaKeygen seed).privateKey) } =
        false) := by
  have hsig : hexDecode (hexEncode (dsaSign (utf8Bytes s) (dsaKeygen seed).privateKey)) =
      dsaSign (utf8Bytes s) (dsaKeygen seed).privateKey := by
    apply hexDecode_hexEncode
    rw [show dsaSign (utf8Bytes s) (dsaKeygen seed).privateKey =
      68 :: (seed ++ utf8Bytes s) from by simp [dsaSign, dsaPubOf, dsaKeygen]]
    exact validBytes_cons _ _ (by omega)
      (validBytes_append _ _ hseed (utf8Bytes_valid s))
  have hds : ∀ t : List Char, dataToString (Json.str t) = some t := fun t => rfl
  refine ⟨rfl, ?_, ?_, ?_, ?_⟩
  · have hv : dsaVerify (utf8Bytes s) (dsaSign (utf8Bytes s) (dsaKeygen seed).privateKey)
        (dsaKeygen seed).publicKey = true := by
      rw [dsaVerify, dsaSign]
      simp [dsaPubOf, dsaKeygen]
    simp only [verifySignature, verifyAttempt, hds, hsig, hv]
  · intro s2 hne
    have hv : dsaVerify (utf8Bytes s2) (dsaSign (utf8Bytes s) (dsaKeygen seed).privateKey)
        (dsaKeygen seed).publicKey = false := by
      rw [dsaVerify, dsaSign]
      simp only [beq_eq_false_iff_ne, ne_eq]
      intro h
      have h2 : utf8Bytes s = utf8Bytes s2 := by
        simpa [dsaPubOf, dsaKeygen] using h
      exact hne (utf8Bytes_injective h2).symm
    simp only [verifySignature, verifyAttempt, hds, hsig, hv]
  · intro sig2 hne
    have hv : dsaVerify (utf8Bytes s) (hexDecode sig2) (dsaKeygen seed).publicKey =
        false := by
      rw [dsaVerify]
      simp only [beq_eq_false_iff_ne, ne_eq]
      intro h
      exact hne (by rw [h, dsaSign]; simp [dsaPubOf, dsaKeygen])
    simp only [verifySignature, verifyAttempt, hds, hv]
  · intro seedB hne
    have hv : dsaVerify (utf8Bytes s) (dsaSign (utf8Bytes s) (dsaKeygen seed).privateKey)
        (dsaKeygen seedB).publicKey = false := by
      rw [dsaVerify, dsaSign]
      simp only [beq_eq_false_iff_ne, ne_eq]
      intro h
      have h2 : (68 : Nat) :: seed = 68 :: seedB :=
        List.append_left_injective (utf8Bytes s)
          (by simpa [dsaPubOf, dsaKeygen, List.append_assoc] using h)
      exact hne (List.cons.injEq _ _ _ _ ▸ h2).2.symm
    simp only [verifySignature, verifyAttempt, hds, hsig, hv]

/-- C5 (witness): a signed token verifies, a one-character change to the
payload is rejected, and so is verification under a different pair. -/
theorem signData_verifySignature_spec_witness :
    verifySignature (dsaKeygen [1])
      { data := Json.str ['a'],
        signature := hexEncode (dsaSign (utf8Bytes ['a']) (dsaKeygen [1]).privateKey) } =
      true ∧
    verifySignature (dsaKeygen [1])
      { data := Json.str ['b'],
        signature := hexEncode (dsaSign (utf8Bytes ['a']) (dsaKeygen [1]).privateKey) } =
      false ∧
    verifySignature (dsaKeygen [2])
      { data := Json.str ['a'],
        signature := hexEncode (dsaSign (utf8Bytes ['a']) (dsaKeygen [1]).privateKey) } =
      false := by
  have h := signData_verifySignature_spec [1] ['a'] (by decide)
  exact ⟨h.2.1, h.2.2.1 ['b'] (by decide), h.2.2.2.2 [2] (by decide)⟩

/-! ## Claim C7 and C8: the pre-save hook -/

theorem preSaveEncrypt_skip_unchanged (keys : KeyPair) (randOf ivOf : String → List Nat) :
    ∀ (fields : List String) (d d2 : EncDoc) (f : String),
      preSaveEncrypt keys randOf ivOf fields d = .ok d2 →
      (f ∉ fields ∨ f ∉ d.modified ∨ presentValue (mapGet d.vals f) = none) →
      mapGet d2.encrypted f = mapGet d.encrypted f ∧
      mapGet d2.encryptedCiphers f = mapGet d.encryptedCiphers f ∧
      mapGet d2.encryptedIVs f = mapGet d.encryptedIVs f := by
  intro fields
  induction fields with
  | nil =>
    intro d d2 f hok hskip
    rw [preSaveEncrypt] at hok
    simp only [Except.ok.injEq] at hok
    subst hok
    exact ⟨rfl, rfl, rfl⟩
  | cons g rest ih =>
    intro d d2 f hok hskip
    have hskip2 : f ∉ rest ∨ f ∉ d.modified ∨ presentValue (mapGet d.vals f) = none := by
      rcases hskip with h | h
      · exact Or.inl (fun hh => h (List.mem_cons_of_mem g hh))
      · exact Or.inr h
    rw [preSaveEncrypt] at hok
    by_cases hg : g ∈ d.modified
    · rw [if_pos hg] at hok
      cases hv : presentValue (mapGet d.vals g) with
      | none =>
        rw [hv] at hok
        exact ih d d2 f hok hskip2
      | some v =>
        rw [hv] at hok
        simp only [] at hok
        cases he : encryptData keys (randOf g) (ivOf g) v with
        | error e =>
          rw [he] at hok
          exact absurd hok (by simp)
        | ok env =>
          rw [he] at hok
          simp only [] at hok
          have hgf : ¬ f = g := by
            intro hh
            subst hh
            rcases hskip with h | h | h
            · exact h (List.mem_cons_self f rest)
            · exact h hg
            · rw [h] at hv
              exact Option.noConfusion hv
          have hrec := ih _ d2 f hok hskip2
          refine ⟨?_, ?_, ?_⟩
          · rw [hrec.1]
            exact mapGet_mapSet_ne _ _ _ _ hgf
          · rw [hrec.2.1]
            exact mapGet_mapSet_ne _ _ _ _ hgf
          · rw [hrec.2.2]
            exact mapGet_mapSet_ne _ _ _ _ hgf
    · rw [if_neg hg] at hok
      exact ih d d2 f hok hskip2

theorem preSaveEncrypt_stores (keys : KeyPair) (randOf ivOf : String → List Nat) :
    ∀ (fields : List String) (d d2 : EncDoc) (f : String) (v : Json),
      preSaveEncrypt keys randOf ivOf fields d = .ok d2 →
      f ∈ fields → f ∈ d.modified → presentValue (mapGet d.vals f) = some v →
      ∃ env, encryptData keys (randOf f) (ivOf f) v = .ok env ∧
        mapGet d2.encrypted f = some env.encryptedData ∧
        mapGet d2.encryptedCiphers f = some env.ciphertext ∧
        mapGet d2.encryptedIVs f = some env.iv := by
  intro fields
  induction fields with
  | nil =>
    intro d d2 f v _ hf
    exact absurd hf (List.not_mem_nil f)
  | cons g rest ih =>
    intro d d2 f v hok hf hmod hv
    rw [preSaveEncrypt] at hok
    by_cases hgf : g = f
    · subst hgf
      rw [if_pos hmod, hv] at hok
      simp only [] at hok
      cases he : encryptData keys (randOf g) (ivOf g) v with
      | error e =>
        rw [he] at hok
        exact absurd hok (by simp)
      | ok env =>
        rw [he] at hok
        simp only [] at hok
        by_cases hrest : g ∈ rest
        · obtain ⟨env2, he2, hm1, hm2, hm3⟩ := ih _ d2 g v hok hrest hmod hv
          refine ⟨env2, ?_, hm1, hm2, hm3⟩
          rw [← he]
          exact he2
        · have hrec := preSaveEncrypt_skip_unchanged keys randOf ivOf rest _ d2 g hok
            (Or.inl hrest)
          refine ⟨env, rfl, ?_, ?_, ?_⟩
          · rw [hrec.1]
            exact mapGet_mapSet_self _ _ _
          · rw [hrec.2.1]
            exact mapGet_mapSet_self _ _ _
          · rw [hrec.2.2]
            exact mapGet_mapSet_self _ _ _
    · have hfr : f ∈ rest := by
        rcases List.mem_cons.mp hf with h | h
        · exact absurd h.symm hgf
        · exact h
      by_cases hg : g ∈ d.modified
      · rw [if_pos hg] at hok
        cases hgv : presentValue (mapGet d.vals g) with
        | none =>
          rw [hgv] at hok
          exact ih d d2 f v hok hfr hmod hv
        | some w =>
          rw [hgv] at hok
          simp only [] at hok
          cases he : encryptData keys (randOf g) (ivOf g) w with
          | error e =>
            rw [he] at hok
            exact absurd hok (by simp)
          | ok env =>
            rw [he] at hok
            simp only [] at hok
            exact ih _ d2 f v hok hfr hmod hv
      · rw [if_neg hg] at hok
        exact ih d d2 f v hok hfr hmod hv

/-- C7: saving a record again when a declared field is not modified leaves
that field's three stored envelope parts byte-identical — the hook skips
the field before any encryption call. -/
theorem preSaveEncrypt_unmodified_stable (keys : KeyPair)
    (randOf ivOf : String → List Nat) (fields : List String) (d d2 : EncDoc)
    (f : String) (hmod : f ∉ d.modified)
    (hok : preSaveEncrypt keys randOf ivOf fields d = .ok d2) :
    mapGet d2.encrypted f = mapGet d.encrypted f ∧
    mapGet d2.encryptedCiphers f = mapGet d.encryptedCiphers f ∧
    mapGet d2.encryptedIVs f = mapGet d.encryptedIVs f :=
  preSaveEncrypt_skip_unchanged keys randOf ivOf fields d d2 f hok (Or.inr (Or.inl hmod))

/-- C7 (witness): a save that re-encrypts the modified field `"a"` leaves
the stored envelope of the unmodified field `"b"` untouched. -/
theorem preSaveEncrypt_unmodified_stable_witness :
    ∃ d2,
      preSaveEncrypt (kemKeygen [1]) (fun _ => List.replicate 32 2)
          (fun _ => List.replicate 16 3) ["a", "b"]
          { vals := [("a", Json.str ['x']), ("b", Json.str ['y'])],
            modified := ["a"],
            encrypted := [("b", { key := [7], iv := [8], plain := ['y'] })],
            encryptedCiphers := [("b", ['0', '0'])],
            encryptedIVs := [("b", ['0', '1'])] } = .ok d2 ∧
      mapGet d2.encrypted "b" = some { key := [7], iv := [8], plain := ['y'] } ∧
      mapGet d2.encryptedCiphers "b" = some ['0', '0'] ∧
      mapGet d2.encryptedIVs "b" = some ['0', '1'] := by
  refine ⟨_, rfl, ?_⟩
  have h := preSaveEncrypt_unmodified_stable (kemKeygen [1]) (fun _ => List.replicate 32 2)
    (fun _ => List.replicate 16 3) ["a", "b"]
    { vals := [("a", Json.str ['x']), ("b", Json.str ['y'])],
      modified := ["a"],
      encrypted := [("b", { key := [7], iv := [8], plain := ['y'] })],
      encryptedCiphers := [("b", ['0', '0'])],
      encryptedIVs := [("b", ['0', '1'])] } _ "b" (by decide) rfl
  exact ⟨h.1, h.2.1, h.2.2⟩

/-- C8 (amended): on a successful save, a declared field's three envelope
parts are freshly stored exactly when the field was modified since load
and its value is neither absent (`undefined`) nor `null`; in every other
case the stored parts are untouched.  The empty string counts as present
and is encrypted — see the counterexample. -/
theorem preSaveEncrypt_stores_iff (keys : KeyPair) (randOf ivOf : String → List Nat)
    (fields : List String) (d d2 : EncDoc) (f : String)
    (hok : preSaveEncrypt keys randOf ivOf fields d = .ok d2) :
    (∀ v, f ∈ fields → f ∈ d.modified → presentValue (mapGet d.vals f) = some v →
      ∃ env, encryptData keys (randOf f) (ivOf f) v = .ok env ∧
        mapGet d2.encrypted f = some env.encryptedData ∧
        mapGet d2.encryptedCiphers f = some env.ciphertext ∧
        mapGet d2.encryptedIVs f = some env.iv) ∧
    ((f ∉ fields ∨ f ∉ d.modified ∨ presentValue (mapGet d.vals f) = none) →
      mapGet d2.encrypted f = mapGet d.encrypted f ∧
      mapGet d2.encryptedCiphers f = mapGet d.encryptedCiphers f ∧
      mapGet d2.encryptedIVs f = mapGet d.encryptedIVs f) :=
  ⟨fun v hf hm hv => preSaveEncrypt_stores keys randOf ivOf fields d d2 f v hok hf hm hv,
   fun hskip => preSaveEncrypt_skip_unchanged keys randOf ivOf fields d d2 f hok hskip⟩

/-- C8 (counterexample to the claim as stated): a modified field holding
the empty string — an "empty" value the claim says is skipped — is
encrypted and its envelope parts stored, because line 164 only skips
`undefined` and `null`. -/
theorem preSaveEncrypt_encrypts_empty_string :
    ∃ d2,
      preSaveEncrypt (kemKeygen [1]) (fun _ => List.replicate 32 2)
          (fun _ => List.replicate 16 3) ["name"]
          { vals := [("name", Json.str [])], modified := ["name"],
            encrypted := [], encryptedCiphers := [], encryptedIVs := [] } = .ok d2 ∧
      mapGet d2.encrypted "name" ≠ none := by
  refine ⟨_, rfl, ?_⟩
  decide

/-- C8 (witness): the characterization applied to a concrete save — the
modified, present field `"a"` gets fresh envelope parts while the
unmodified field `"b"` keeps its old ones. -/
theorem preSaveEncrypt_stores_iff_witness :
    ∃ d2,
      preSaveEncrypt (kemKeygen [1]) (fun _ => List.replicate 32 2)
          (fun _ => List.replicate 16 3) ["a", "b"]
          { vals := [("a", Json.str ['x']), ("b", Json.str ['y'])],
            modified := ["a"],
            encrypted := [("b", { key := [7], iv := [8], plain := ['y'] })],
            encryptedCiphers := [("b", ['0', '0'])],
            encryptedIVs := [("b", ['0', '1'])] } = .ok d2 ∧
      (∃ env, encryptData (kemKeygen [1]) (List.replicate 32 2) (List.replicate 16 3)
          (Json.str ['x']) = .ok env ∧
        mapGet d2.encrypted "a" = some env.encryptedData ∧
        mapGet d2.encryptedCiphers "a" = some env.ciphertext ∧
        mapGet d2.encryptedIVs "a" = some env.iv) ∧
      mapGet d2.encrypted "b" = some { key := [7], iv := [8], plain := ['y'] } := by
  refine ⟨_, rfl, ?_, ?_⟩
  · exact (preSaveEncrypt_stores_iff (kemKeygen [1]) (fun _ => List.replicate 32 2)
      (fun _ => List.replicate 16 3) ["a", "b"]
      { vals := [("a", Json.str ['x']), ("b", Json.str ['y'])],
        modified := ["a"],
        encrypted := [("b", { key := [7], iv := [8], plain := ['y'] })],
        encryptedCiphers := [("b", ['0', '0'])],
        encryptedIVs := [("b", ['0', '1'])] } _ "a" rfl).1 (Json.str ['x'])
      (by decide) (by decide) rfl
  · have h := ((preSaveEncrypt_stores_iff (kemKeygen [1]) (fun _ => List.replicate 32 2)
      (fun _ => List.replicate 16 3) ["a", "b"]
      { vals := [("a", Json.str ['x']), ("b", Json.str ['y'])],
        modified := ["a"],
        encrypted := [("b", { key := [7], iv := [8], plain := ['y'] })],
        encryptedCiphers := [("b", ['0', '0'])],
        encryptedIVs := [("b", ['0', '1'])] } _ "b" rfl).2
      (Or.inr (Or.inl (by decide)))).1
    exact h.trans (by decide)

/-! ## Claim C9: per-field decryption fallback -/

/-- C9: `decryptFields` always yields one entry per declared field; a
field whose stored envelope fails to decrypt contributes its raw stored
value (the per-field `catch`), and every other field contributes its own
`decryptField` outcome — a corrupted single field never prevents
returning the rest of the record. -/
theorem decryptFields_isolates_failures (keys : KeyPair) (fields : List String)
    (d : EncDoc) :
    (decryptFields keys fields d).map Prod.fst = fields ∧
    ∀ f ∈ fields,
      (∀ e, decryptField keys fields d f = .error e →
        (f, mapGet d.vals f) ∈ decryptFields keys fields d) ∧
      (∀ v, decryptField keys fields d f = .ok v →
        (f, v) ∈ decryptFields keys fields d) := by
  have hgen : ∀ (β : Type) (h : String → β) (l : List String),
      (l.map (fun g => (g, h g))).map Prod.fst = l := by
    intro β h l
    induction l with
    | nil => rfl
    | cons x xs ih => simp [ih]
  constructor
  · rw [decryptFields]
    exact hgen _ (fun g =>
      match decryptField keys fields d g with
      | .ok v => v
      | .error _ => mapGet d.vals g) fields
  · intro f hf
    constructor
    · intro e he
      rw [decryptFields]
      refine List.mem_map.mpr ⟨f, hf, ?_⟩
      show (f, match decryptField keys fields d f with
        | Except.ok v => v
        | Except.error _ => mapGet d.vals f) = (f, mapGet d.vals f)
      rw [he]
    · intro v hv
      rw [decryptFields]
      refine List.mem_map.mpr ⟨f, hf, ?_⟩
      show (f, match decryptField keys fields d f with
        | Except.ok v => v
        | Except.error _ => mapGet d.vals f) = (f, v)
      rw [hv]

/-- C9 (witness): a record whose field `"b"` holds a corrupted envelope —
its decrypt throws — still yields both entries: the raw stored value for
`"b"` and the decrypted value for `"a"`. -/
theorem decryptFields_isolates_failures_witness :
    decryptField (kemKeygen [1]) ["a", "b"]
        { vals := [("a", Json.str ['x']), ("b", Json.str ['y'])],
          modified := [],
          encrypted :=
            [("a", aesEncrypt (kemSecret (80 :: [1]) (List.replicate 32 2))
                (List.replicate 16 3) ['x']),
             ("b", { key := [9], iv := [8], plain := ['z'] })],
          encryptedCiphers :=
            [("a", hexEncode (List.replicate 32 2 ++ (80 :: [1]))), ("b", ['0', '0'])],
          encryptedIVs :=
            [("a", hexEncode (List.replicate 16 3)), ("b", ['0', '0'])] } "b" =
      .error "Failed to decrypt data" ∧
    ("b", some (Json.str ['y'])) ∈ decryptFields (kemKeygen [1]) ["a", "b"]
        { vals := [("a", Json.str ['x']), ("b", Json.str ['y'])],
          modified := [],
          encrypted :=
            [("a", aesEncrypt (kemSecret (80 :: [1]) (List.replicate 32 2))
                (List.replicate 16 3) ['x']),
             ("b", { key := [9], iv := [8], plain := ['z'] })],
          encryptedCiphers :=
            [("a", hexEncode (List.replicate 32 2 ++ (80 :: [1]))), ("b", ['0', '0'])],
          encryptedIVs :=
            [("a", hexEncode (List.replicate 16 3)), ("b", ['0', '0'])] } ∧
    ("a", some (Json.str ['x'])) ∈ decryptFields (kemKeygen [1]) ["a", "b"]
        { vals := [("a", Json.str ['x']), ("b", Json.str ['y'])],
          modified := [],
          encrypted :=
            [("a", aesEncrypt (kemSecret (80 :: [1]) (List.replicate 32 2))
                (List.replicate 16 3) ['x']),
             ("b", { key := [9], iv := [8], plain := ['z'] })],
          encryptedCiphers :=
            [("a", hexEncode (List.replicate 32 2 ++ (80 :: [1]))), ("b", ['0', '0'])],
          encryptedIVs :=
            [("a", hexEncode (List.replicate 16 3)), ("b", ['0', '0'])] } := by
  refine ⟨rfl, ?_, ?_⟩
  · exact ((decryptFields_isolates_failures (kemKeygen [1]) ["a", "b"] _).2 "b"
      (by decide)).1 "Failed to decrypt data" rfl
  · exact ((decryptFields_isolates_failures (kemKeygen [1]) ["a", "b"] _).2 "a"
      (by decide)).2 (some (Json.str ['x'])) rfl

/-! ## Claim C10: safe projections -/

theorem mapGet_removeKey_self {α : Type} (l : List (String × α)) (k : String) :
    mapGet (removeKey l k) k = none := by
  rw [mapGet_removeKey, if_pos rfl]

theorem mapGet_removeKey_of_ne {α : Type} (l : List (String × α)) (k k2 : String)
    (h : ¬ k2 = k) : mapGet (removeKey l k) k2 = mapGet l k2 := by
  rw [mapGet_removeKey, if_neg h]

/-- C10: the object either `toSafeJSON` returns — on the successful
decryption path and on the error-fallback path alike — carries none of
the keys `_encrypted`, `_encryptedCiphers`, `_encryptedIVs`, and for
users no `password` key, whatever the stored record held. -/
theorem toSafeJSON_no_sensitive_keys {α : Type} (user batch : List (String × α))
    (res1 res2 : Except String (List (String × α))) :
    (mapGet (userToSafeJSON user res1) "_encrypted" = none ∧
     mapGet (userToSafeJSON user res1) "_encryptedCiphers" = none ∧
     mapGet (userToSafeJSON user res1) "_encryptedIVs" = none ∧
     mapGet (userToSafeJSON user res1) "password" = none) ∧
    (mapGet (batchToSafeJSON batch res2) "_encrypted" = none ∧
     mapGet (batchToSafeJSON batch res2) "_encryptedCiphers" = none ∧
     mapGet (batchToSafeJSON batch res2) "_encryptedIVs" = none) := by
  constructor
  · have huser : ∀ m : List (String × α),
        mapGet (removeKey (removeKey (removeKey (removeKey m
            "_encrypted") "_encryptedCiphers") "_encryptedIVs") "password")
          "_encrypted" = none ∧
        mapGet (removeKey (removeKey (removeKey (removeKey m
            "_encrypted") "_encryptedCiphers") "_encryptedIVs") "password")
          "_encryptedCiphers" = none ∧
        mapGet (removeKey (removeKey (removeKey (removeKey m
            "_encrypted") "_encryptedCiphers") "_encryptedIVs") "password")
          "_encryptedIVs" = none ∧
        mapGet (removeKey (removeKey (removeKey (removeKey m
            "_encrypted") "_encryptedCiphers") "_encryptedIVs") "password")
          "password" = none := by
      intro m
      refine ⟨?_, ?_, ?_, ?_⟩
      · rw [mapGet_removeKey_of_ne _ _ _ (by decide),
          mapGet_removeKey_of_ne _ _ _ (by decide),
          mapGet_removeKey_of_ne _ _ _ (by decide), mapGet_removeKey_self]
      · rw [mapGet_removeKey_of_ne _ _ _ (by decide),
          mapGet_removeKey_of_ne _ _ _ (by decide), mapGet_removeKey_self]
      · rw [mapGet_removeKey_of_ne _ _ _ (by decide), mapGet_removeKey_self]
      · rw [mapGet_removeKey_self]
    cases res1 with
    | ok fs => exact huser _
    | error e => exact huser _
  · have hbatch : ∀ m : List (String × α),
        mapGet (removeKey (removeKey (removeKey m
            "_encrypted") "_encryptedCiphers") "_encryptedIVs") "_encrypted" = none ∧
        mapGet (removeKey (removeKey (removeKey m
            "_encrypted") "_encryptedCiphers") "_encryptedIVs") "_encryptedCiphers" =
          none ∧
        mapGet (removeKey (removeKey (removeKey m
            "_encrypted") "_encryptedCiphers") "_encryptedIVs") "_encryptedIVs" =
          none := by
      intro m
      refine ⟨?_, ?_, ?_⟩
      · rw [mapGet_removeKey_of_ne _ _ _ (by decide),
          mapGet_removeKey_of_ne _ _ _ (by decide), mapGet_removeKey_self]
      · rw [mapGet_removeKey_of_ne _ _ _ (by decide), mapGet_removeKey_self]
      · rw [mapGet_removeKey_self]
    cases res2 with
    | ok fs => exact hbatch _
    | error e => exact hbatch _

end SupplyChain
